import Mathlib

/-!
Verification of the error-clustering and patch-application engine of the
angular-upgrade-assistant repository.  The definitions below are a shallow
embedding of `src/patcher.ts`, `ErrorClusterer` and `PatternMatcher`
(translated line group by line group from the TypeScript source); the
theorems settle the frozen claims about them.

Conventions of the embedding:
* JavaScript `string.split('\n')` / `array.join('\n')` become `splitLines` /
  `joinLines` (note: `"".split('\n')` is `[""]`, faithfully reproduced).
* `Array.prototype.splice` keeps its JavaScript clamping semantics for
  negative and out-of-range indices (`jsSpliceRemove` / `jsSpliceInsert`).
* The file system is a list of (path, contents) pairs; `writeFileSync`
  becomes `fsSet`.  `try`/`catch` blocks whose bodies are total functions
  cannot fire and are dropped.
-/

namespace AUA

/-! ### Splitting and joining on newlines (JS `split('\n')` / `join('\n')`) -/

def splitNlAux : List Char → List (List Char)
  | [] => [[]]
  | c :: rest =>
    match splitNlAux rest with
    | [] => [[c]]
    | h :: t => if c = '\n' then [] :: h :: t else (c :: h) :: t

def joinNlAux : List (List Char) → List Char
  | [] => []
  | [x] => x
  | x :: y :: t => x ++ '\n' :: joinNlAux (y :: t)

def splitLines (s : String) : List String := (splitNlAux s.data).map String.mk

def joinLines (ls : List String) : String := String.mk (joinNlAux (ls.map String.data))

/-! ### Small string helpers -/

/-- `startsB s pre` is JS `s.startsWith(pre)`. -/
def listPre : List Char → List Char → Bool
  | [], _ => true
  | _ :: _, [] => false
  | p :: ps, c :: cs => p = c && listPre ps cs

def startsB (s pre : String) : Bool := listPre pre.data s.data

/-- JS `s.substring(n)`. -/
def dropStr (s : String) (n : Nat) : String := String.mk (s.data.drop n)

def digitVal (c : Char) : Nat := c.toNat - 48

/-- JS `parseInt(ds, 10)` on a nonempty string of decimal digits. -/
def digitsToNat (ds : List Char) : Nat := ds.foldl (fun a c => a * 10 + digitVal c) 0

/-- Decimal rendering of a natural, as JS template interpolation produces.
Structural recursion on a fuel bound (`n < fuel` always holds at the call
site), so that the kernel can evaluate it. -/
def natReprGo : Nat → Nat → List Char
  | 0, _ => []
  | fuel + 1, n =>
    if n < 10 then [Char.ofNat (48 + n)]
    else natReprGo fuel (n / 10) ++ [Char.ofNat (48 + n % 10)]

def natRepr (n : Nat) : String := String.mk (natReprGo (n + 1) n)

/-! ### Hunk parsing (`parseUnifiedDiff`, regex `^@@ -(\d+),?(\d*) \+(\d+),?(\d*) @@`) -/

structure Hunk where
  oldStart : Nat
  oldCount : Nat
  newStart : Nat
  newCount : Nat
  removals : List String
  additions : List String
deriving DecidableEq

def spanDigits (cs : List Char) : List Char × List Char :=
  (cs.takeWhile Char.isDigit, cs.dropWhile Char.isDigit)

/-!
Matching of the hunk-header regexp against the start of a line.  On
success it returns the four captured digit groups (the optional count
captures are `[]` when absent) and the remainder of the line after the
closing `@@`.  The greedy scan below is what the backtracking regex engine
computes: each `\d+`/`\d*` takes a maximal digit run, and if a comma is
present the `,?` consumes it (dropping it cannot create a match, since the
following character would then be the comma itself, never the required
space).
-/

/-- `,?(\d*)`: if a comma is present consume it and a maximal digit run,
else capture the empty string. -/
def commaPart (r : List Char) : List Char × List Char :=
  match r with
  | ',' :: rb => spanDigits rb
  | _ => ([], r)

/-- The closing ` @@` of the header regex. -/
def tailAfter (r : List Char) : Option (List Char) :=
  match r with
  | ' ' :: '@' :: '@' :: rest => some rest
  | _ => none

/-- The `(\d+),?(\d*) @@` part after the `+`. -/
def afterPlus (o1 o2 r4 : List Char) :
    Option (List Char × List Char × List Char × List Char × List Char) :=
  if (spanDigits r4).1 = [] then none
  else
    match tailAfter (commaPart (spanDigits r4).2).2 with
    | some rest => some (o1, o2, (spanDigits r4).1, (commaPart (spanDigits r4).2).1, rest)
    | none => none

/-- The `(\d+),?(\d*) \+` part after the `-`. -/
def afterDash (r2 : List Char) :
    Option (List Char × List Char × List Char × List Char × List Char) :=
  if (spanDigits r2).1 = [] then none
  else
    match (commaPart (spanDigits r2).2).2 with
    | ' ' :: '+' :: r5 => afterPlus (spanDigits r2).1 (commaPart (spanDigits r2).2).1 r5
    | _ => none

def matchHunkHeader (cs : List Char) :
    Option (List Char × List Char × List Char × List Char × List Char) :=
  match cs with
  | '@' :: '@' :: ' ' :: '-' :: rest1 => afterDash rest1
  | _ => none

/-- A freshly started hunk from a parsed header: `match[2] ? parseInt(match[2]) : 1`. -/
def hunkOfHeader (o1 o2 n1 n2 : List Char) : Hunk :=
  { oldStart := digitsToNat o1
    oldCount := if o2 = [] then 1 else digitsToNat o2
    newStart := digitsToNat n1
    newCount := if n2 = [] then 1 else digitsToNat n2
    removals := []
    additions := [] }

/-- One iteration of the `parseUnifiedDiff` loop on a single line: the new
current hunk and accumulator. -/
def parseStep (line : String) (cur : Option Hunk) (acc : List Hunk) : Option Hunk × List Hunk :=
  match matchHunkHeader line.data with
  | some (o1, o2, n1, n2, _) => (some (hunkOfHeader o1 o2 n1 n2), acc ++ cur.toList)
  | none =>
    match cur with
    | none => (none, acc)
    | some h =>
      if startsB line "-" && !(startsB line "---") then
        (some { h with removals := h.removals ++ [dropStr line 1] }, acc)
      else if startsB line "+" && !(startsB line "+++") then
        (some { h with additions := h.additions ++ [dropStr line 1] }, acc)
      else (some h, acc)

def parseUDGo : List String → Option Hunk → List Hunk → List Hunk
  | [], cur, acc => acc ++ cur.toList
  | line :: rest, cur, acc =>
    parseUDGo rest (parseStep line cur acc).1 (parseStep line cur acc).2

def parseUnifiedDiff (diffLines : List String) : List Hunk := parseUDGo diffLines none []

/-! ### JS `Array.prototype.splice` and `applyUnifiedDiff` -/

/-- The actual start index JS `splice` computes from a possibly negative
relative index: `start < 0 ? max(len + start, 0) : min(start, len)`. -/
def jsIndex (len : Nat) (start : Int) : Nat :=
  if start < 0 then len - min len start.natAbs else min start.toNat len

def jsSpliceRemove {α : Type} (l : List α) (start : Int) (deleteCount : Nat) : List α :=
  l.take (jsIndex l.length start) ++ l.drop (jsIndex l.length start + deleteCount)

def jsSpliceInsert {α : Type} (l : List α) (start : Int) (items : List α) : List α :=
  l.take (jsIndex l.length start) ++ items ++ l.drop (jsIndex l.length start)

/-- `if (hunk.removals.length > 0) lines.splice(startLine, hunk.removals.length)`. -/
def applyHunkRemove (lines : List String) (h : Hunk) : List String :=
  if h.removals.length > 0 then jsSpliceRemove lines ((h.oldStart : Int) - 1) h.removals.length
  else lines

/-- Both splices of one hunk, at `startLine = hunk.oldStart - 1`. -/
def applyHunkJS (lines : List String) (h : Hunk) : List String :=
  if h.additions.length > 0 then
    jsSpliceInsert (applyHunkRemove lines h) ((h.oldStart : Int) - 1) h.additions
  else applyHunkRemove lines h

/-- `hunks.reverse(); for (const hunk of hunks) ...`. -/
def applyHunks (hunks : List Hunk) (lines : List String) : List String :=
  List.foldl applyHunkJS lines hunks.reverse

/-- `applyUnifiedDiff` from patcher.ts.  Every operation in its body is
total, so the surrounding `try`/`catch` can never produce the `null`
branch; the `Option` return type records the source signature
`string | null`. -/
def applyUnifiedDiff (content diff : String) : Option String :=
  some (joinLines (applyHunks (parseUnifiedDiff (splitLines diff)) (splitLines content)))

/-! ### `createReverseDiff` -/

def reverseLine (line : String) : String :=
  if startsB line "+" && !(startsB line "+++") then String.mk ('-' :: line.data.drop 1)
  else if startsB line "-" && !(startsB line "---") then String.mk ('+' :: line.data.drop 1)
  else
    match matchHunkHeader line.data with
    | some (o1, o2, n1, n2, rest) =>
      String.mk ("@@ -".data ++ n1 ++ ',' :: (if n2 = [] then ['1'] else n2) ++
        " +".data ++ o1 ++ ',' :: (if o2 = [] then ['1'] else o2) ++ " @@".data ++ rest)
    | none => line

def createReverseDiff (diff : String) : String :=
  joinLines ((splitLines diff).map reverseLine)

/-! ### `validatePatch` -/

structure Patch where
  diff : String
  description : String
  filePath : String
  source : String
deriving DecidableEq

/-- JS array indexing `l[i]` (`undefined`, i.e. `none`, outside the range). -/
def intGet? (l : List String) (i : Int) : Option String :=
  if i < 0 then none else l[i.toNat]?

/-- The contiguous run of context lines right after a hunk header, already
stripped of their leading space. -/
def ctxRun (rest : List String) : List String :=
  (rest.takeWhile (fun l => startsB l " ")).map (fun l => dropStr l 1)

def checkCtx (fileLines : List String) : Int → List String → Bool
  | _, [] => true
  | pos, c :: rest =>
    if intGet? fileLines pos = some c then checkCtx fileLines (pos + 1) rest else false

def validateScan (fileLines : List String) : List String → Bool
  | [] => true
  | line :: rest =>
    match matchHunkHeader line.data with
    | some (o1, _, _, _, _) =>
      if checkCtx fileLines ((digitsToNat o1 : Int) - 1) (ctxRun rest) then
        validateScan fileLines rest
      else false
    | none => validateScan fileLines rest

def validatePatch (fileContent : String) (patch : Patch) : Bool :=
  validateScan (splitLines fileContent) (splitLines patch.diff)

/-! ### File system model and `applyPatch` / `revertPatch` / `applyPatchBatch` -/

abbrev FS := List (String × String)

def fsGet (fs : FS) (p : String) : Option String :=
  (fs.find? (fun e => e.1 == p)).map (fun e => e.2)

def fsExists (fs : FS) (p : String) : Bool := (fsGet fs p).isSome

def fsSet (fs : FS) (p v : String) : FS :=
  if fs.any (fun e => e.1 == p) then fs.map (fun e => if e.1 == p then (p, v) else e)
  else fs ++ [(p, v)]

def applyPatch (fs : FS) (filePath : String) (patch : Patch) : Bool × FS :=
  if fsExists fs filePath then
    match fsGet fs filePath with
    | some fileContent =>
      if validatePatch fileContent patch then
        match applyUnifiedDiff fileContent patch.diff with
        | some patched => (true, fsSet fs filePath patched)
        | none => (false, fs)
      else (false, fs)
    | none => (false, fs)
  else (false, fs)

def reversePatchOf (p : Patch) : Patch := { p with diff := createReverseDiff p.diff }

def revertPatch (fs : FS) (filePath : String) (patch : Patch) : Bool × FS :=
  applyPatch fs filePath (reversePatchOf patch)

def rollbackAll : FS → List (String × Patch) → FS
  | fs, [] => fs
  | fs, (fp, p) :: rest => rollbackAll (revertPatch fs fp p).2 rest

def batchGo : FS → List (String × Patch) → List (String × Patch) → Option String × FS
  | fs, _, [] => (none, fs)
  | fs, applied, (fp, p) :: rest =>
    let r := applyPatch fs fp p
    if r.1 then batchGo r.2 (applied ++ [(fp, p)]) rest
    else (some ("Failed to apply patch to " ++ fp), rollbackAll fs applied.reverse)

/-- `applyPatchBatch`; the first component is the message of the rethrown
error (`none` on full success). -/
def applyPatchBatch (fs : FS) (items : List (String × Patch)) : Option String × FS :=
  batchGo fs [] items

/-! ### `createPatch` -/

def patchBodyAux : List String → List String → List String
  | [], n => n.map (fun b => "+" ++ b)
  | a :: o, [] => ("-" ++ a) :: patchBodyAux o []
  | a :: o, b :: n =>
    if a ≠ b then ("-" ++ a) :: ("+" ++ b) :: patchBodyAux o n
    else (" " ++ a) :: patchBodyAux o n

def createPatch (filePath oldContent newContent description : String) : Patch :=
  let oldLines := splitLines oldContent
  let newLines := splitLines newContent
  let headerLines := ["--- a/" ++ filePath, "+++ b/" ++ filePath,
    "@@ -1," ++ natRepr oldLines.length ++ " +1," ++ natRepr newLines.length ++ " @@"]
  { diff := String.join ((headerLines ++ patchBodyAux oldLines newLines).map (fun l => l ++ "\n"))
    description := description
    filePath := filePath
    source := "auto" }

/-! ### ErrorClusterer: pattern keys and clustering -/

def quoteChar : Char := Char.ofNat 39

def isQuote (c : Char) : Bool := c = quoteChar || c = '"'

/-- For regex 1, `/['"][^'"]*['"]/g`: the content up to (and the remainder
after) the next quote character, if any. -/
def splitAtQuote : List Char → Option (List Char × List Char)
  | [] => none
  | c :: rest =>
    if isQuote c then some ([], rest)
    else (splitAtQuote rest).map (fun p => (c :: p.1, p.2))

/-- `message.replace(/[\x27"][^\x27"]*[\x27"]/g, \x27<STRING>\x27)`, as a
structural scan on a fuel bound (the fuel never runs out when it starts at
the length of the input, since each step consumes at least one character,
and a `<STRING>` step at least two). -/
def replQGo : Nat → List Char → List Char
  | 0, cs => cs
  | _, [] => []
  | fuel + 1, c :: rest =>
    if isQuote c then
      match splitAtQuote rest with
      | some p => "<STRING>".data ++ replQGo fuel p.2
      | none => c :: replQGo fuel rest
    else c :: replQGo fuel rest

def replQ (cs : List Char) : List Char := replQGo cs.length cs

/-- `key.replace(/\d+/g, \x27<NUM>\x27)`. -/
def replDGo : Nat → List Char → List Char
  | 0, cs => cs
  | _, [] => []
  | fuel + 1, c :: rest =>
    if c.isDigit then "<NUM>".data ++ replDGo fuel (rest.dropWhile Char.isDigit)
    else c :: replDGo fuel rest

def replD (cs : List Char) : List Char := replDGo cs.length cs

/-- The character class `[\w\-\.]` of the path regex. -/
def isPathChar (c : Char) : Bool := c.isAlphanum || c = '_' || c = '-' || c = '.'

/-- One `\/[\w\-\.]+` group consumed from the head, if present. -/
def onePathGroup : List Char → Option (List Char)
  | '/' :: rest =>
    if rest.takeWhile isPathChar = [] then none else some (rest.dropWhile isPathChar)
  | _ => none

/-- The maximal `(\/[\w\-\.]+)+` run from the head, if at least one group
matches; returns the remainder. -/
def pathManyGo : Nat → List Char → Option (List Char)
  | 0, _ => none
  | fuel + 1, cs =>
    match onePathGroup cs with
    | none => none
    | some rest =>
      match pathManyGo fuel rest with
      | some rest2 => some rest2
      | none => some rest

def pathMany (cs : List Char) : Option (List Char) := pathManyGo cs.length cs

/-- `key.replace(/(\/[\w\-\.]+)+/g, \x27<PATH>\x27)`. -/
def replPGo : Nat → List Char → List Char
  | 0, cs => cs
  | _, [] => []
  | fuel + 1, c :: rest =>
    match pathMany (c :: rest) with
    | some rem => "<PATH>".data ++ replPGo fuel rem
    | none => c :: replPGo fuel rest

def replP (cs : List Char) : List Char := replPGo cs.length cs

/-- JS `String.prototype.trim` (the ASCII whitespace characters; the
messages this development evaluates contain no exotic Unicode spacing). -/
def isWsJS (c : Char) : Bool :=
  c = ' ' || c = '\t' || c = '\n' || c = '\r' || c = Char.ofNat 11 || c = Char.ofNat 12

def trimChars (cs : List Char) : List Char :=
  ((cs.dropWhile isWsJS).reverse.dropWhile isWsJS).reverse

/-- `ErrorClusterer.generatePatternKey`. -/
def generatePatternKey (message : String) : String :=
  String.mk (trimChars (replP (replD (replQ message.data))))

structure Conflict where
  filePath : String
  lineNumber : Nat
  message : String
  severity : String
deriving DecidableEq

structure ErrorCluster where
  id : String
  pattern : String
  instances : List Conflict
  representative : Conflict
deriving DecidableEq

/-- One step of `clusterErrors`: insert into the insertion-ordered map
(`Map` keys are unique, so the `map` update touches exactly the cluster
whose pattern is `key`), creating the cluster first if the key is new. -/
def addConflict (acc : List ErrorCluster) (c : Conflict) : List ErrorCluster :=
  let key := generatePatternKey c.message
  let acc1 :=
    if acc.any (fun cl => cl.pattern == key) then acc
    else acc ++ [{ id := "cluster-" ++ natRepr (acc.length + 1), pattern := key,
                   instances := [], representative := c }]
  acc1.map (fun cl => if cl.pattern == key then { cl with instances := cl.instances ++ [c] } else cl)

/-- `ErrorClusterer.clusterErrors`. -/
def clusterErrors (conflicts : List Conflict) : List ErrorCluster :=
  conflicts.foldl addConflict []

/-! ### PatternMatcher -/

/-- JS `haystack.includes(needle)`. -/
def hasSubAux : List Char → List Char → Bool
  | [], needle => listPre needle []
  | h :: t, needle => listPre needle (h :: t) || hasSubAux t needle

def strIncludes (s sub : String) : Bool := hasSubAux s.data sub.data

structure PatternFix where
  id : String
  name : String
  description : String
  check : Conflict → Bool
  fix : Conflict → Option Patch

/-- Pattern 1 of `initializePatterns` (HttpModule deprecation). -/
def patternHttpModule : PatternFix :=
  { id := "http-module-deprecation"
    name := "HttpModule Deprecation"
    description := "Replaces deprecated HttpModule with HttpClientModule"
    check := fun conflict =>
      strIncludes conflict.message "HttpModule" && strIncludes conflict.message "deprecated"
    fix := fun conflict =>
      some { diff := "\n- import { HttpModule } from \x27@angular/http\x27;\n+ import { HttpClientModule } from \x27@angular/common/http\x27;\n"
             description := "Replace HttpModule with HttpClientModule"
             filePath := conflict.filePath
             source := "pattern" } }

/-- Pattern 2 of `initializePatterns` (RxJS operators; its fix returns
`null`). -/
def patternRxjs : PatternFix :=
  { id := "rxjs-operators"
    name := "RxJS Operators"
    description := "Fixes old RxJS operator imports"
    check := fun conflict =>
      strIncludes conflict.message "rxjs" && strIncludes conflict.message "has no exported member"
    fix := fun _ => none }

/-- The rule registry built by the `PatternMatcher` constructor. -/
def patterns007 : List PatternFix := [patternHttpModule, patternRxjs]

def matchGo : List PatternFix → Conflict → Option PatternFix
  | [], _ => none
  | p :: rest, rep => if p.check rep then some p else matchGo rest rep

/-- `PatternMatcher.matchPattern` with the registry `this.patterns` made
explicit. -/
def matchPattern (patterns : List PatternFix) (cluster : ErrorCluster) : Option PatternFix :=
  matchGo patterns cluster.representative

/-! ### Specification-side definitions

The definitions below do not embed source code; they are the vocabulary in
which the claims are stated and settled (well-formedness of a hunk list
against a line list, the first-appearance key order, the batch hypotheses,
and a token model of diagnostic messages). -/

/-- Exchange the old/new sides of a hunk, as `createReverseDiff` does at the
level of parsed hunks. -/
def swapHunk (h : Hunk) : Hunk :=
  { oldStart := h.newStart
    oldCount := h.newCount
    newStart := h.oldStart
    newCount := h.oldCount
    removals := h.additions
    additions := h.removals }

/-- `HunksFit p q hs L L'`: the hunks `hs`, in order, decompose the line
lists `L` (old file from absolute position `p`) and `L'` (new file from
absolute position `q`): each hunk sits after an untouched segment `A`, its
`oldStart`/`newStart` are exactly one past its absolute 0-indexed position
in the respective file, its removals are literally the old lines there and
its additions the new ones.  This is the well-formedness every real unified
diff satisfies: hunks in increasing order, non-overlapping, with headers
consistent with the line shift accumulated so far. -/
inductive HunksFit : Nat → Nat → List Hunk → List String → List String → Prop where
  | nil (p q : Nat) (L : List String) : HunksFit p q [] L L
  | cons (p q : Nat) (h : Hunk) (t : List Hunk) (A M M' : List String)
      (ho : h.oldStart = p + A.length + 1)
      (hn : h.newStart = q + A.length + 1)
      (ht : HunksFit (p + A.length + h.removals.length) (q + A.length + h.additions.length) t M M') :
      HunksFit p q (h :: t) (A ++ h.removals ++ M) (A ++ h.additions ++ M')

abbrev noNlS (s : String) : Prop := '\n' ∉ s.data

/-- The distinct pattern keys of a conflict list in order of first
appearance. -/
def firstKeys : List Conflict → List String
  | [] => []
  | c :: rest =>
    generatePatternKey c.message ::
      (firstKeys rest).filter (fun x => x != generatePatternKey c.message)

/-- The error report of the forward pass alone: the message of the first
failing item, computed without consulting any rollback result. -/
def firstFailMsg : FS → List (String × Patch) → Option String
  | _, [] => none
  | fs, (fp, p) :: rest =>
    let r := applyPatch fs fp p
    if r.1 then firstFailMsg r.2 rest else some ("Failed to apply patch to " ++ fp)

/-- `RollSeq fs items fsK`: starting from `fs`, every item of `items`
applies successfully (file present, validation passes, apply succeeds),
`fsK` is the state after all of them, and each item's reverse patch
validates against the patched content and reverse-applies to exactly the
content the item found.  This is the hypothesis under which the batch
rollback restores the world. -/
def RollSeq : FS → List (String × Patch) → FS → Prop
  | fs, [], fsK => fs = fsK
  | fs, (fp, p) :: rest, fsK => ∃ c c',
      fsGet fs fp = some c ∧
      validatePatch c p = true ∧
      applyUnifiedDiff c p.diff = some c' ∧
      validatePatch c' (reversePatchOf p) = true ∧
      applyUnifiedDiff c' (reversePatchOf p).diff = some c ∧
      RollSeq (fsSet fs fp c') rest fsK

/-- The invariant `clusterErrors` maintains while folding over the input:
after processing `done`, the accumulated clusters have pairwise-distinct
patterns listed in first-appearance order, each cluster's instances are
exactly the processed conflicts with its key (in order), and each
representative is the first processed conflict with its key. -/
def clusterInv (done : List Conflict) (acc : List ErrorCluster) : Prop :=
  ((acc.map (fun cl => cl.pattern)).Nodup) ∧
  (∀ cl ∈ acc, cl.instances =
    done.filter (fun c => generatePatternKey c.message == cl.pattern)) ∧
  (∀ cl ∈ acc, done.find? (fun c => generatePatternKey c.message == cl.pattern)
    = some cl.representative) ∧
  (acc.map (fun cl => cl.pattern) = firstKeys done)

/-! A token model of diagnostic messages for the pattern-key claim: a
message is an interleaving of fixed literal text with volatile parts
(quoted substrings, digit runs, path segment sequences). -/

inductive MsgTok where
  | lit (s : String)
  | quoted (q : Char) (content : String)
  | num (ds : String)
  | path (segs : List String)

def renderTok : MsgTok → List Char
  | .lit s => s.data
  | .quoted q content => q :: (content.data ++ [q])
  | .num ds => ds.data
  | .path segs => segs.foldr (fun seg acc => '/' :: (seg.data ++ acc)) []

def renderMsg (ts : List MsgTok) : String :=
  String.mk (ts.foldr (fun t acc => renderTok t ++ acc) [])

/-- What each token contributes to the pattern key. -/
def tokKey : MsgTok → List Char
  | .lit s => s.data
  | .quoted _ _ => "<STRING>".data
  | .num _ => "<NUM>".data
  | .path _ => "<PATH>".data

/-- Well-formedness of a single token: literals are nonempty and contain no
quote, digit or slash; quoted contents contain no quote; digit runs are
nonempty digits; path segments are nonempty and use the path character
class minus digits. -/
def goodTokB : MsgTok → Bool
  | .lit s => !s.data.isEmpty && s.data.all (fun c => !isQuote c && !c.isDigit && !(c = '/'))
  | .quoted q content => isQuote q && content.data.all (fun c => !isQuote c)
  | .num ds => !ds.data.isEmpty && ds.data.all Char.isDigit
  | .path segs => !segs.isEmpty &&
      segs.all (fun seg => !seg.data.isEmpty && seg.data.all (fun c => isPathChar c && !c.isDigit))

/-- Adjacency constraints: two digit runs or two path runs must not abut
(they would merge), and a literal directly after a path run must not start
with a path character (it would be absorbed into the path match). -/
def okPairB : MsgTok → MsgTok → Bool
  | .num _, .num _ => false
  | .path _, .path _ => false
  | .path _, .lit s =>
    match s.data with
    | [] => true
    | c :: _ => !isPathChar c
  | _, _ => true

def goodChainB : List MsgTok → Bool
  | [] => true
  | [t] => goodTokB t
  | t :: u :: rest => goodTokB t && okPairB t u && goodChainB (u :: rest)

/-- Same skeleton: identical constructor sequence with identical literal
text; the volatile contents may differ. -/
def shapeTokB : MsgTok → MsgTok → Bool
  | .lit s, .lit s2 => s == s2
  | .quoted _ _, .quoted _ _ => true
  | .num _, .num _ => true
  | .path _, .path _ => true
  | _, _ => false

def shapeListB : List MsgTok → List MsgTok → Bool
  | [], [] => true
  | a :: as, b :: bs => shapeTokB a b && shapeListB as bs
  | _, _ => false

/-- The text of a token after the quoted-string replacement stage. -/
def tokQ : MsgTok → List Char
  | .quoted _ _ => "<STRING>".data
  | t => renderTok t

/-- The text of a token after the quoted-string and digit stages. -/
def tokQD : MsgTok → List Char
  | .quoted _ _ => "<STRING>".data
  | .num _ => "<NUM>".data
  | t => renderTok t

/-! Concrete values used by the witnesses. -/

def exConflictHttp : Conflict :=
  { filePath := "app.module.ts", lineNumber := 12
    message := "HttpModule is deprecated", severity := "error" }

def exClusterHttp : ErrorCluster :=
  { id := "cluster-1", pattern := "HttpModule is deprecated"
    instances := [exConflictHttp], representative := exConflictHttp }

/-- A patch whose forward apply succeeds and whose reverse patch restores
the original content. -/
def patchSwapFirst : Patch :=
  { diff := "@@ -1,1 +1,1 @@\n-x\n+y", description := "swap first line"
    filePath := "f", source := "auto" }

/-- A patch with a context line directly after the header: it validates and
applies forward, but its reverse patch fails validation against the patched
content (the engine removes the context line's position). -/
def patchCtxFirst : Patch :=
  { diff := "@@ -1,2 +1,2 @@\n x\n-z\n+w", description := "replace second line"
    filePath := "f", source := "auto" }

/-- A patch with an inconsistent header (`newStart` is 5 though the hunk
sits at line 1): the forward apply succeeds but the reverse apply splices at
the wrong place. -/
def patchBadHeader : Patch :=
  { diff := "@@ -1,1 +5,1 @@\n-a\n+A", description := "replace first line"
    filePath := "f", source := "auto" }

/-- A patch whose diff has no hunks at all. -/
def patchNoHunks : Patch :=
  { diff := "x", description := "no hunks", filePath := "g", source := "auto" }

/-! ## Theorems -/

/-! ### Newline splitting and joining -/

theorem splitNlAux_ne_nil (cs : List Char) : splitNlAux cs ≠ [] := by
  cases cs with
  | nil => simp [splitNlAux]
  | cons c rest =>
    simp only [splitNlAux]
    cases h : splitNlAux rest with
    | nil => simp
    | cons a t => by_cases hc : c = '\n' <;> simp [hc]

theorem joinNlAux_splitNlAux (cs : List Char) : joinNlAux (splitNlAux cs) = cs := by
  induction cs with
  | nil => rfl
  | cons c rest ih =>
    simp only [splitNlAux]
    cases h : splitNlAux rest with
    | nil => exact absurd h (splitNlAux_ne_nil rest)
    | cons a t =>
      rw [h] at ih
      show joinNlAux (if c = '\n' then [] :: a :: t else (c :: a) :: t) = c :: rest
      by_cases hc : c = '\n'
      · subst hc
        rw [if_pos rfl]
        show [] ++ '\n' :: joinNlAux (a :: t) = '\n' :: rest
        rw [List.nil_append, ih]
      · rw [if_neg hc]
        cases t with
        | nil =>
          show (c :: a) = c :: rest
          have : joinNlAux [a] = a := rfl
          rw [this] at ih
          rw [ih]
        | cons b t2 =>
          show (c :: a) ++ '\n' :: joinNlAux (b :: t2) = c :: rest
          have : joinNlAux (a :: b :: t2) = a ++ '\n' :: joinNlAux (b :: t2) := rfl
          rw [this] at ih
          rw [List.cons_append, ih]

theorem mem_splitNlAux_no_nl : ∀ cs p, p ∈ splitNlAux cs → '\n' ∉ p := by
  intro cs
  induction cs with
  | nil =>
    intro p hp
    simp [splitNlAux] at hp
    subst hp
    simp
  | cons c rest ih =>
    intro p hp
    simp only [splitNlAux] at hp
    cases h : splitNlAux rest with
    | nil => exact absurd h (splitNlAux_ne_nil rest)
    | cons a t =>
      rw [h] at hp
      have hp2 : p ∈ (if c = '\n' then [] :: a :: t else (c :: a) :: t) := hp
      by_cases hc : c = '\n'
      · rw [if_pos hc] at hp2
        rcases List.mem_cons.mp hp2 with h1 | h1
        · subst h1; simp
        · exact ih p (h ▸ h1)
      · rw [if_neg hc] at hp2
        rcases List.mem_cons.mp hp2 with h1 | h1
        · subst h1
          intro hmem
          rcases List.mem_cons.mp hmem with h2 | h2
          · exact hc h2.symm
          · exact ih a (h ▸ List.mem_cons_self a t) h2
        · exact ih p (h ▸ List.mem_cons_of_mem a h1)

theorem splitNlAux_append_piece (a cs : List Char) (h : List Char) (t : List (List Char))
    (hnl : '\n' ∉ a) (hcs : splitNlAux cs = h :: t) :
    splitNlAux (a ++ cs) = (a ++ h) :: t := by
  induction a with
  | nil => simpa using hcs
  | cons c a2 ih =>
    have hc : c ≠ '\n' := fun hx => hnl (hx ▸ List.mem_cons_self c a2)
    have ih2 := ih (fun hm => hnl (List.mem_cons_of_mem c hm))
    show splitNlAux (c :: (a2 ++ cs)) = (c :: (a2 ++ h)) :: t
    simp only [splitNlAux]
    rw [ih2]
    show (if c = '\n' then [] :: (a2 ++ h) :: t else (c :: (a2 ++ h)) :: t) = (c :: (a2 ++ h)) :: t
    rw [if_neg hc]

theorem splitNlAux_joinNlAux : ∀ ps, ps ≠ [] → (∀ p ∈ ps, '\n' ∉ p) →
    splitNlAux (joinNlAux ps) = ps := by
  intro ps
  induction ps with
  | nil => intro h; exact absurd rfl h
  | cons a t ih =>
    intro _ hnl
    cases t with
    | nil =>
      show splitNlAux (joinNlAux [a]) = [a]
      have : joinNlAux [a] = a := rfl
      rw [this]
      have : a = a ++ ([] : List Char) := by simp
      rw [this]
      exact splitNlAux_append_piece a [] [] [] (by simpa using hnl a (List.mem_cons_self a []))
        rfl
    | cons b t2 =>
      have hrec := ih (by simp) (fun p hp => hnl p (List.mem_cons_of_mem a hp))
      show splitNlAux (a ++ '\n' :: joinNlAux (b :: t2)) = a :: b :: t2
      have hstep : splitNlAux ('\n' :: joinNlAux (b :: t2)) = [] :: b :: t2 := by
        simp only [splitNlAux]
        rw [hrec]
        simp
      rw [splitNlAux_append_piece a ('\n' :: joinNlAux (b :: t2)) [] (b :: t2)
        (hnl a (List.mem_cons_self a (b :: t2))) hstep]
      simp

theorem string_mk_data (s : String) : String.mk s.data = s := rfl

theorem joinLines_splitLines (s : String) : joinLines (splitLines s) = s := by
  unfold joinLines splitLines
  rw [List.map_map]
  have : (String.data ∘ String.mk) = id := rfl
  rw [this, List.map_id, joinNlAux_splitNlAux]

theorem splitLines_joinLines (ls : List String) (hne : ls ≠ [])
    (hnl : ∀ l ∈ ls, noNlS l) : splitLines (joinLines ls) = ls := by
  unfold joinLines splitLines
  have hmapne : ls.map String.data ≠ [] := by
    intro h
    exact hne (List.map_eq_nil_iff.mp h)
  have hmapnl : ∀ p ∈ ls.map String.data, '\n' ∉ p := by
    intro p hp
    rcases List.mem_map.mp hp with ⟨l, hl, rfl⟩
    exact hnl l hl
  rw [show (String.mk (joinNlAux (ls.map String.data))).data = joinNlAux (ls.map String.data) from rfl]
  rw [splitNlAux_joinNlAux _ hmapne hmapnl, List.map_map]
  have : (String.mk ∘ String.data) = id := rfl
  rw [this, List.map_id]

theorem splitLines_ne_nil (s : String) : splitLines s ≠ [] := by
  unfold splitLines
  intro h
  exact splitNlAux_ne_nil s.data (List.map_eq_nil_iff.mp h)

theorem mem_splitLines_noNl (s : String) : ∀ l ∈ splitLines s, noNlS l := by
  intro l hl
  unfold splitLines at hl
  rcases List.mem_map.mp hl with ⟨p, hp, rfl⟩
  exact mem_splitNlAux_no_nl s.data p hp

/-! ### `applyHunks` and splice behavior -/

theorem applyHunks_nil (L : List String) : applyHunks [] L = L := rfl

theorem applyHunks_cons (h : Hunk) (t : List Hunk) (L : List String) :
    applyHunks (h :: t) L = applyHunkJS (applyHunks t L) h := by
  unfold applyHunks
  rw [List.reverse_cons, List.foldl_append]
  rfl

theorem jsIndex_natCast (len n : Nat) : jsIndex len (n : Int) = min n len := by
  unfold jsIndex
  rw [if_neg (by omega), Int.toNat_natCast]

theorem jsSpliceRemove_exact {α : Type} (X R Y : List α) :
    jsSpliceRemove (X ++ R ++ Y) (X.length : Int) R.length = X ++ Y := by
  unfold jsSpliceRemove
  rw [jsIndex_natCast]
  have hmin : min X.length (X ++ R ++ Y).length = X.length := by
    simp [List.length_append]
  rw [hmin]
  have htake : (X ++ R ++ Y).take X.length = X := by
    rw [List.append_assoc, List.take_left]
  have hdrop : (X ++ R ++ Y).drop (X.length + R.length) = Y := by
    rw [show X.length + R.length = (X ++ R).length from (List.length_append X R).symm,
      List.drop_left]
  rw [htake, hdrop]

theorem jsSpliceInsert_exact {α : Type} (X Y I : List α) :
    jsSpliceInsert (X ++ Y) (X.length : Int) I = X ++ I ++ Y := by
  unfold jsSpliceInsert
  rw [jsIndex_natCast]
  have hmin : min X.length (X ++ Y).length = X.length := by
    simp [List.length_append]
  rw [hmin, List.take_left, List.drop_left, List.append_assoc]

theorem applyHunkRemove_exact (X Y : List String) (h : Hunk) (ho : h.oldStart = X.length + 1) :
    applyHunkRemove (X ++ h.removals ++ Y) h = X ++ Y := by
  unfold applyHunkRemove
  have hstart : ((h.oldStart : Int) - 1) = (X.length : Int) := by
    rw [ho]; push_cast; ring
  by_cases hr : h.removals.length > 0
  · rw [if_pos hr, hstart, jsSpliceRemove_exact]
  · rw [if_neg hr]
    have hnil : h.removals = [] := List.length_eq_zero.mp (by omega)
    rw [hnil]
    simp

theorem applyHunkJS_exact (X Y : List String) (h : Hunk) (ho : h.oldStart = X.length + 1) :
    applyHunkJS (X ++ h.removals ++ Y) h = X ++ h.additions ++ Y := by
  unfold applyHunkJS
  have hstart : ((h.oldStart : Int) - 1) = (X.length : Int) := by
    rw [ho]; push_cast; ring
  by_cases ha : h.additions.length > 0
  · rw [if_pos ha, applyHunkRemove_exact X Y h ho, hstart, jsSpliceInsert_exact]
  · rw [if_neg ha, applyHunkRemove_exact X Y h ho]
    have hnil : h.additions = [] := List.length_eq_zero.mp (by omega)
    rw [hnil]
    simp

/-! ### Claim C2 -/

/-- Claim C2 counterexample: on a non-empty diff that parses to zero hunks,
`applyUnifiedDiff` does not return the failure value; it returns the
content unchanged wrapped in success. -/
theorem C2_counterexample :
    ("hello" : String) ≠ "" ∧ parseUnifiedDiff (splitLines "hello") = [] ∧
    applyUnifiedDiff "abc" "hello" = some "abc" := by
  refine ⟨by decide, by decide, by decide⟩

/-- Claim C2, amended: `applyUnifiedDiff` never returns the failure value
`none` (its body is total, so the `catch` branch is unreachable); in
particular, when parsing yields zero hunks it returns the content
unchanged, and a negative computed splice position (`oldStart = 0`) is
clamped by the JS `splice` semantics rather than reported as a failure. -/
theorem C2_apply_never_fails (c d : String) :
    ∃ r, applyUnifiedDiff c d = some r ∧ (parseUnifiedDiff (splitLines d) = [] → r = c) := by
  refine ⟨joinLines (applyHunks (parseUnifiedDiff (splitLines d)) (splitLines c)), rfl, ?_⟩
  intro h
  rw [h, applyHunks_nil, joinLines_splitLines]

/-- Witness for C2 at the concrete counterexample input. -/
theorem C2_apply_never_fails_witness :
    ∃ r, applyUnifiedDiff "abc" "hello" = some r ∧
      (parseUnifiedDiff (splitLines "hello") = [] → r = "abc") :=
  C2_apply_never_fails "abc" "hello"

/-! ### Claim C4 -/

/-- Claim C4: `applyPatch` returns `true` exactly when the file exists, its
content validates against the patch, `applyUnifiedDiff` succeeds and the
result is written back; whenever it returns `false` the file system is left
exactly as it was (validation happens before any mutation, so a failure
never leaves a partial write). -/
theorem C4_applyPatch_spec (fs : FS) (fp : String) (p : Patch) :
    ((applyPatch fs fp p).1 = true ↔
      ∃ c, fsGet fs fp = some c ∧ validatePatch c p = true ∧
        ∃ r, applyUnifiedDiff c p.diff = some r ∧ (applyPatch fs fp p).2 = fsSet fs fp r) ∧
    ((applyPatch fs fp p).1 = false → (applyPatch fs fp p).2 = fs) := by
  unfold applyPatch fsExists
  cases hg : fsGet fs fp with
  | none => simp [hg]
  | some c =>
    simp only [hg, Option.isSome_some, if_true]
    by_cases hv : validatePatch c p
    · cases ha : applyUnifiedDiff c p.diff with
      | none => exact absurd ha (by unfold applyUnifiedDiff; simp)
      | some r => simp [hv, ha]
    · simp [hv]

/-- Witness for C4: a failing `applyPatch` (missing file) leaves the file
system untouched. -/
theorem C4_applyPatch_spec_witness :
    (applyPatch ([] : FS) "f" patchSwapFirst).2 = ([] : FS) :=
  (C4_applyPatch_spec [] "f" patchSwapFirst).2 (by decide)

/-! ### Claim C5 -/

/-- Claim C5 counterexample: two batch runs on the same triggering failure,
one whose rollback revert fails (`revertPatch` returns `false` and the
patched content stays on disk) and one whose rollback succeeds, produce
the very same reported error; the rollback failure is silently swallowed,
not reported distinctly. -/
theorem C5_counterexample :
    (applyPatchBatch [("f", "x\nz")] [("f", patchCtxFirst), ("g", patchNoHunks)]).1 =
      (applyPatchBatch [("f", "x\nz")] [("f", patchSwapFirst), ("g", patchNoHunks)]).1 ∧
    (revertPatch [("f", "w\nz")] "f" patchCtxFirst).1 = false ∧
    (revertPatch [("f", "y\nz")] "f" patchSwapFirst).1 = true ∧
    fsGet (applyPatchBatch [("f", "x\nz")] [("f", patchCtxFirst), ("g", patchNoHunks)]).2 "f" =
      some "w\nz" ∧
    fsGet (applyPatchBatch [("f", "x\nz")] [("f", patchSwapFirst), ("g", patchNoHunks)]).2 "f" =
      some "x\nz" := by
  refine ⟨by decide, by decide, by decide, by decide, by decide⟩

/-- Claim C5, amended: the error reported by `applyPatchBatch` is exactly
the first forward failure, computed without consulting any `revertPatch`
result — rollback failures are discarded, never surfaced to the caller. -/
theorem C5_error_ignores_rollback (fs : FS) (items : List (String × Patch)) :
    (applyPatchBatch fs items).1 = firstFailMsg fs items := by
  unfold applyPatchBatch
  suffices hgen : ∀ (its : List (String × Patch)) (fs2 : FS) (acc : List (String × Patch)),
      (batchGo fs2 acc its).1 = firstFailMsg fs2 its by
    exact hgen items fs []
  intro its
  induction its with
  | nil => intro fs2 acc; rfl
  | cons hd tl ih =>
    intro fs2 acc
    obtain ⟨fp, p⟩ := hd
    show (batchGo fs2 acc ((fp, p) :: tl)).1 = firstFailMsg fs2 ((fp, p) :: tl)
    unfold batchGo firstFailMsg
    by_cases hap : (applyPatch fs2 fp p).1
    · simp only [hap, if_true]
      exact ih (applyPatch fs2 fp p).2 (acc ++ [(fp, p)])
    · simp only [Bool.not_eq_true] at hap
      simp only [hap]
      rfl

/-! ### Claim C8 -/

theorem matchGo_none_iff (ps : List PatternFix) (rep : Conflict) :
    matchGo ps rep = none ↔ ∀ p ∈ ps, p.check rep = false := by
  induction ps with
  | nil => simp [matchGo]
  | cons p rest ih =>
    unfold matchGo
    by_cases hc : p.check rep
    · simp [hc]
    · simp only [Bool.not_eq_true] at hc
      simp [hc, ih]

theorem matchGo_first (ps : List PatternFix) (rep : Conflict) :
    ∀ i (hi : i < ps.length), (ps.get ⟨i, hi⟩).check rep = true →
      ∃ j, ∃ hj : j < ps.length, j ≤ i ∧ (ps.get ⟨j, hj⟩).check rep = true ∧
        (∀ k (hk : k < j), (ps.get ⟨k, Nat.lt_trans hk hj⟩).check rep = false) ∧
        matchGo ps rep = some (ps.get ⟨j, hj⟩) := by
  induction ps with
  | nil => intro i hi; simp at hi
  | cons p rest ih =>
    intro i hi hchk
    by_cases hc : p.check rep
    · refine ⟨0, by simp, Nat.zero_le i, hc, ?_, ?_⟩
      · intro k hk; omega
      · unfold matchGo
        rw [if_pos hc]
        rfl
    · simp only [Bool.not_eq_true] at hc
      cases i with
      | zero =>
        have : (p :: rest).get ⟨0, hi⟩ = p := rfl
        rw [this] at hchk
        rw [hchk] at hc
        cases hc
      | succ i2 =>
        have hi2 : i2 < rest.length := by simpa using hi
        have hchk2 : (rest.get ⟨i2, hi2⟩).check rep = true := hchk
        obtain ⟨j, hj, hle, hjc, hnone, heq⟩ := ih i2 hi2 hchk2
        refine ⟨j + 1, by simpa using hj, by omega, hjc, ?_, ?_⟩
        · intro k hk
          cases k with
          | zero => exact hc
          | succ k2 => exact hnone k2 (by omega)
        · unfold matchGo
          rw [if_neg (by simp [hc]), heq]
          rfl

/-- Claim C8: `matchPattern` returns `none` exactly when no registered
rule's predicate accepts the cluster's representative, and whenever some
rule at index `i` accepts it, the returned rule is the one at the least
accepting index `j ≤ i` — so of two matching rules the earlier-registered
one is always returned (determinism is inherent: the embedding is a pure
function of the registry and the cluster). -/
theorem C8_matchPattern_first (ps : List PatternFix) (cl : ErrorCluster) :
    ((matchPattern ps cl = none) ↔ ∀ p ∈ ps, p.check cl.representative = false) ∧
    (∀ i (hi : i < ps.length), (ps.get ⟨i, hi⟩).check cl.representative = true →
      ∃ j, ∃ hj : j < ps.length, j ≤ i ∧ (ps.get ⟨j, hj⟩).check cl.representative = true ∧
        (∀ k (hk : k < j), (ps.get ⟨k, Nat.lt_trans hk hj⟩).check cl.representative = false) ∧
        matchPattern ps cl = some (ps.get ⟨j, hj⟩)) :=
  ⟨matchGo_none_iff ps cl.representative, matchGo_first ps cl.representative⟩

/-- Witness for C8 on the concrete registry of `initializePatterns` and a
representative matching its first rule. -/
theorem C8_matchPattern_first_witness :
    ∃ j, ∃ hj : j < patterns007.length, j ≤ 0 ∧
      (patterns007.get ⟨j, hj⟩).check exClusterHttp.representative = true ∧
      (∀ k (hk : k < j),
        (patterns007.get ⟨k, Nat.lt_trans hk hj⟩).check exClusterHttp.representative = false) ∧
      matchPattern patterns007 exClusterHttp = some (patterns007.get ⟨j, hj⟩) :=
  (C8_matchPattern_first patterns007 exClusterHttp).2 0 (by decide) (by decide)

/-! ### Counterexamples for claims C1, C3, C7 and C10 -/

/-- Claim C1 counterexample: a diff whose body has only removal/addition
lines and a single hunk (so no overlap), which applies successfully, but
whose header's `newStart` (5) is inconsistent with its position; applying
`createReverseDiff` to the result splices at the clamped position 4 and
returns `"A\nb\na"`, not the original `"a\nb"`. -/
theorem C1_counterexample :
    applyUnifiedDiff "a\nb" patchBadHeader.diff = some "A\nb" ∧
    applyUnifiedDiff "A\nb" (createReverseDiff patchBadHeader.diff) = some "A\nb\na" ∧
    ("A\nb\na" : String) ≠ "a\nb" := by
  refine ⟨by decide, by decide, by decide⟩

/-- Claim C3 counterexample: a two-item batch whose first item applies
successfully (diff `patchBadHeader`) and whose second item fails (missing
file `g`).  After the call the first item's file holds `"A\nb\na"`, not its
pre-batch content `"a\nb"`: the rollback reverted at the wrong position, so
the 0..K-1 files are not always restored. -/
theorem C3_counterexample :
    (applyPatchBatch [("f", "a\nb")] [("f", patchBadHeader), ("g", patchNoHunks)]).1 =
      some "Failed to apply patch to g" ∧
    fsGet (applyPatchBatch [("f", "a\nb")] [("f", patchBadHeader), ("g", patchNoHunks)]).2 "f" =
      some "A\nb\na" ∧
    some ("A\nb\na" : String) ≠ some "a\nb" := by
  refine ⟨by decide, by decide, by decide⟩

/-- Claim C7 counterexample: two messages that differ only in the contents
of a path segment (`app1` versus `appX`) get different pattern keys,
because digit substitution runs before path substitution and splits the
path around `<NUM>`. -/
theorem C7_counterexample :
    generatePatternKey "Cannot find module /src/app1/main" ≠
      generatePatternKey "Cannot find module /src/appX/main" := by
  decide

/-- Claim C10 counterexample: `createPatch` between `"a\nb"` and `"a\nB"`
emits a context line for the common first line, but `applyUnifiedDiff`
splices removals at `oldStart - 1 = 0` ignoring context, producing
`"B\nb"` instead of `"a\nB"`. -/
theorem C10_counterexample :
    applyUnifiedDiff "a\nb" (createPatch "f" "a\nb" "a\nB" "d").diff = some "B\nb" ∧
    some ("B\nb" : String) ≠ some "a\nB" := by
  refine ⟨by decide, by decide⟩

/-! ### Applying well-fitting hunks -/

theorem HunksFit.swap : ∀ {p q : Nat} {hs : List Hunk} {M M' : List String},
    HunksFit p q hs M M' → HunksFit q p (hs.map swapHunk) M' M := by
  intro p q hs M M' fit
  induction fit with
  | nil p1 q1 L => exact HunksFit.nil q1 p1 L
  | cons p1 q1 h t A M1 M1' ho hn ht ih =>
    exact HunksFit.cons q1 p1 (swapHunk h) (t.map swapHunk) A M1' M1 hn ho ih

theorem applyHunks_fit : ∀ {p q : Nat} {hs : List Hunk} {M M' : List String},
    HunksFit p q hs M M' → ∀ L : List String, L.length = p →
    applyHunks hs (L ++ M) = L ++ M' := by
  intro p q hs M M' fit
  induction fit with
  | nil p1 q1 L1 =>
    intro L hl
    rw [applyHunks_nil]
  | cons p1 q1 h t A M1 M1' ho hn ht ih =>
    intro L hl
    rw [applyHunks_cons]
    have e1 : L ++ (A ++ h.removals ++ M1) = ((L ++ A) ++ h.removals) ++ M1 := by
      simp [List.append_assoc]
    rw [e1, ih ((L ++ A) ++ h.removals) (by simp [List.length_append, hl]; omega)]
    have e2 : ((L ++ A) ++ h.removals) ++ M1' = (L ++ A) ++ h.removals ++ M1' := by
      simp [List.append_assoc]
    rw [e2, applyHunkJS_exact (L ++ A) M1' h (by simp [List.length_append, hl]; omega)]
    simp [List.append_assoc]

def hunkNoNl (h : Hunk) : Prop :=
  (∀ s ∈ h.removals, noNlS s) ∧ (∀ s ∈ h.additions, noNlS s)

theorem parseStep_noNl (line : String) (cur : Option Hunk) (acc : List Hunk)
    (hline : noNlS line) (hcur : ∀ h, cur = some h → hunkNoNl h)
    (hacc : ∀ h ∈ acc, hunkNoNl h) :
    (∀ h, (parseStep line cur acc).1 = some h → hunkNoNl h) ∧
    (∀ h ∈ (parseStep line cur acc).2, hunkNoNl h) := by
  have haccur : ∀ h2 ∈ acc ++ cur.toList, hunkNoNl h2 := by
    intro h2 h2m
    rcases List.mem_append.mp h2m with h3 | h3
    · exact hacc h2 h3
    · cases cur with
      | none => simp at h3
      | some h4 =>
        simp at h3
        subst h3
        exact hcur _ rfl
  have hdrop : noNlS (dropStr line 1) := by
    intro hmem
    exact hline (List.mem_of_mem_drop hmem)
  unfold parseStep
  cases hmh : matchHunkHeader line.data with
  | some tup =>
    obtain ⟨o1, o2, n1, n2, r⟩ := tup
    dsimp only
    refine ⟨?_, haccur⟩
    intro h he
    simp only [Option.some_inj] at he
    subst he
    exact ⟨by simp [hunkOfHeader], by simp [hunkOfHeader]⟩
  | none =>
    cases cur with
    | none => exact ⟨by simp, hacc⟩
    | some h0 =>
      have hh0 : hunkNoNl h0 := hcur h0 rfl
      dsimp only
      by_cases hminus : (startsB line "-" && !(startsB line "---")) = true
      · rw [if_pos hminus]
        refine ⟨?_, hacc⟩
        intro h he
        simp only [Option.some_inj] at he
        subst he
        refine ⟨?_, hh0.2⟩
        intro s hs
        rcases List.mem_append.mp hs with h6 | h6
        · exact hh0.1 s h6
        · simp at h6
          subst h6
          exact hdrop
      · rw [if_neg hminus]
        by_cases hplus : (startsB line "+" && !(startsB line "+++")) = true
        · rw [if_pos hplus]
          refine ⟨?_, hacc⟩
          intro h he
          simp only [Option.some_inj] at he
          subst he
          refine ⟨hh0.1, ?_⟩
          intro s hs
          rcases List.mem_append.mp hs with h6 | h6
          · exact hh0.2 s h6
          · simp at h6
            subst h6
            exact hdrop
        · rw [if_neg hplus]
          refine ⟨?_, hacc⟩
          intro h he
          simp only [Option.some_inj] at he
          subst he
          exact hh0

theorem parseUDGo_noNl : ∀ (lines : List String) (cur : Option Hunk) (acc : List Hunk),
    (∀ l ∈ lines, noNlS l) → (∀ h, cur = some h → hunkNoNl h) → (∀ h ∈ acc, hunkNoNl h) →
    ∀ h ∈ parseUDGo lines cur acc, hunkNoNl h := by
  intro lines
  induction lines with
  | nil =>
    intro cur acc _ hcur hacc h hh
    unfold parseUDGo at hh
    rcases List.mem_append.mp hh with h1 | h1
    · exact hacc h h1
    · cases cur with
      | none => simp at h1
      | some h2 =>
        simp at h1
        subst h1
        exact hcur _ rfl
  | cons line rest ih =>
    intro cur acc hlines hcur hacc h hh
    have hh2 : h ∈ parseUDGo rest (parseStep line cur acc).1 (parseStep line cur acc).2 := hh
    obtain ⟨hc1, hc2⟩ := parseStep_noNl line cur acc (hlines line (List.mem_cons_self line rest))
      hcur hacc
    exact ih _ _ (fun l hl => hlines l (List.mem_cons_of_mem line hl)) hc1 hc2 h hh2

theorem parseUnifiedDiff_noNl (d : String) :
    ∀ h ∈ parseUnifiedDiff (splitLines d), hunkNoNl h :=
  parseUDGo_noNl (splitLines d) none [] (mem_splitLines_noNl d) (by simp) (by simp)

theorem fit_noNl : ∀ {p q : Nat} {hs : List Hunk} {M M' : List String},
    HunksFit p q hs M M' → (∀ s ∈ M, noNlS s) → (∀ h ∈ hs, hunkNoNl h) →
    ∀ s ∈ M', noNlS s := by
  intro p q hs M M' fit
  induction fit with
  | nil p1 q1 L1 => intro hM _ s hs2; exact hM s hs2
  | cons p1 q1 h t A M1 M1' ho hn ht ih =>
    intro hM hhs s hs2
    rcases List.mem_append.mp hs2 with h1 | h1
    · rcases List.mem_append.mp h1 with h2 | h2
      · exact hM s (List.mem_append.mpr (Or.inl (List.mem_append.mpr (Or.inl h2))))
      · exact (hhs h (List.mem_cons_self h t)).2 s h2
    · refine ih ?_ (fun h2 h2m => hhs h2 (List.mem_cons_of_mem h h2m)) s h1
      intro s2 hs3
      exact hM s2 (List.mem_append.mpr (Or.inr hs3))

/-! ### Inversion and reconstruction of `matchHunkHeader` -/

theorem spanDigits_append (a z : List Char) (ha : ∀ c ∈ a, c.isDigit = true)
    (hz : ∀ x, z.head? = some x → x.isDigit = false) :
    spanDigits (a ++ z) = (a, z) := by
  induction a with
  | nil =>
    cases z with
    | nil => rfl
    | cons x zs =>
      have hx : x.isDigit = false := hz x rfl
      unfold spanDigits
      simp [List.takeWhile, List.dropWhile, hx]
  | cons c a2 ih =>
    have hcd : c.isDigit = true := ha c (List.mem_cons_self c a2)
    have ih2 := ih (fun x hx => ha x (List.mem_cons_of_mem c hx))
    unfold spanDigits at ih2 ⊢
    simp only [List.cons_append, List.takeWhile, List.dropWhile, hcd]
    simp only [Prod.mk.injEq] at ih2
    simp [ih2.1, ih2.2]

theorem spanDigits_decomp (r : List Char) :
    r = (spanDigits r).1 ++ (spanDigits r).2 ∧ (∀ c ∈ (spanDigits r).1, c.isDigit = true) := by
  constructor
  · show r = r.takeWhile Char.isDigit ++ r.dropWhile Char.isDigit
    exact (List.takeWhile_append_dropWhile Char.isDigit r).symm
  · intro c hc
    have hc2 : c ∈ r.takeWhile Char.isDigit := hc
    exact List.mem_takeWhile_imp hc2

theorem commaPart_cons_comma (rb : List Char) : commaPart (',' :: rb) = spanDigits rb := rfl

theorem commaPart_decomp (r : List Char) :
    (∃ p, r = p ++ (commaPart r).2) ∧ (∀ c ∈ (commaPart r).1, c.isDigit = true) := by
  cases r with
  | nil => exact ⟨⟨[], rfl⟩, by simp [commaPart]⟩
  | cons x rb =>
    by_cases hx : x = ','
    · subst hx
      rw [commaPart_cons_comma]
      refine ⟨⟨',' :: (spanDigits rb).1, ?_⟩, (spanDigits_decomp rb).2⟩
      show ',' :: rb = ',' :: ((spanDigits rb).1 ++ (spanDigits rb).2)
      rw [← (spanDigits_decomp rb).1]
    · have hcp : commaPart (x :: rb) = ([], x :: rb) := by
        unfold commaPart
        split
        · rename_i heq
          injection heq with h1 h2
          simp_all
        · rfl
      rw [hcp]
      exact ⟨⟨[], rfl⟩, by simp⟩

theorem tailAfter_inv (r rest : List Char) (h : tailAfter r = some rest) :
    r = ' ' :: '@' :: '@' :: rest := by
  unfold tailAfter at h
  split at h
  · simp only [Option.some_inj] at h
    subst h
    rfl
  · exact absurd h (by simp)

theorem sufx_trans {a b c : List Char} (h1 : ∃ p, b = p ++ c) (h2 : ∃ p, a = p ++ b) :
    ∃ p, a = p ++ c := by
  obtain ⟨p1, e1⟩ := h1
  obtain ⟨p2, e2⟩ := h2
  exact ⟨p2 ++ p1, by rw [e2, e1, List.append_assoc]⟩

theorem mh_inv {cs o1 o2 n1 n2 rest : List Char}
    (h : matchHunkHeader cs = some (o1, o2, n1, n2, rest)) :
    o1 ≠ [] ∧ (∀ c ∈ o1, c.isDigit = true) ∧ (∀ c ∈ o2, c.isDigit = true) ∧
    n1 ≠ [] ∧ (∀ c ∈ n1, c.isDigit = true) ∧ (∀ c ∈ n2, c.isDigit = true) ∧
    (∃ t, cs = '@' :: '@' :: ' ' :: '-' :: t) ∧ (∃ pre, cs = pre ++ rest) := by
  unfold matchHunkHeader at h
  split at h
  case h_2 => exact absurd h (by simp)
  case h_1 cs2 rest1 =>
    unfold afterDash at h
    split at h
    · exact absurd h (by simp)
    · rename_i ho1ne
      split at h
      case h_2 => exact absurd h (by simp)
      case h_1 r5 hc1 =>
        unfold afterPlus at h
        split at h
        · exact absurd h (by simp)
        · rename_i hn1ne
          split at h
          case h_2 => exact absurd h (by simp)
          case h_1 rest2 htail =>
            simp only [Option.some_inj, Prod.mk.injEq] at h
            obtain ⟨ho1, ho2, hn1, hn2, hrest⟩ := h
            have hd1 := spanDigits_decomp rest1
            have hc2 := commaPart_decomp (spanDigits rest1).2
            have hd3 := spanDigits_decomp r5
            have hc4 := commaPart_decomp (spanDigits r5).2
            have htaileq := tailAfter_inv _ _ htail
            refine ⟨?_, ?_, ?_, ?_, ?_, ?_, ⟨rest1, rfl⟩, ?_⟩
            · rw [← ho1]; exact ho1ne
            · rw [← ho1]; exact hd1.2
            · rw [← ho2]; exact hc2.2
            · rw [← hn1]; exact hn1ne
            · rw [← hn1]; exact hd3.2
            · rw [← hn2]; exact hc4.2
            · rw [← hrest]
              have s1 : ∃ p, (commaPart (spanDigits r5).2).2 = p ++ rest2 :=
                ⟨[' ', '@', '@'], htaileq⟩
              have s2 : ∃ p, (spanDigits r5).2 = p ++ (commaPart (spanDigits r5).2).2 :=
                hc4.1
              have s3 : ∃ p, r5 = p ++ (spanDigits r5).2 := ⟨(spanDigits r5).1, hd3.1⟩
              have s4 : ∃ p, (commaPart (spanDigits rest1).2).2 = p ++ r5 :=
                ⟨[' ', '+'], hc1⟩
              have s5 : ∃ p, (spanDigits rest1).2 = p ++ (commaPart (spanDigits rest1).2).2 :=
                hc2.1
              have s6 : ∃ p, rest1 = p ++ (spanDigits rest1).2 :=
                ⟨(spanDigits rest1).1, hd1.1⟩
              have s7 : ∃ p, ('@' :: '@' :: ' ' :: '-' :: rest1 : List Char) = p ++ rest1 :=
                ⟨['@', '@', ' ', '-'], rfl⟩
              exact sufx_trans s1 (sufx_trans s2 (sufx_trans s3
                (sufx_trans s4 (sufx_trans s5 (sufx_trans s6 s7)))))

theorem mh_build (a b c d rest : List Char) (ha : a ≠ []) (hda : ∀ x ∈ a, x.isDigit = true)
    (hdb : ∀ x ∈ b, x.isDigit = true) (hcne : c ≠ []) (hdc : ∀ x ∈ c, x.isDigit = true)
    (hdd : ∀ x ∈ d, x.isDigit = true) :
    matchHunkHeader ('@' :: '@' :: ' ' :: '-' ::
      (a ++ ',' :: (b ++ ' ' :: '+' :: (c ++ ',' :: (d ++ ' ' :: '@' :: '@' :: rest)))))
      = some (a, b, c, d, rest) := by
  have h1 : spanDigits (a ++ ',' :: (b ++ ' ' :: '+' :: (c ++ ',' :: (d ++ ' ' :: '@' :: '@' :: rest))))
      = (a, ',' :: (b ++ ' ' :: '+' :: (c ++ ',' :: (d ++ ' ' :: '@' :: '@' :: rest)))) :=
    spanDigits_append _ _ hda (by intro x hx; simp at hx; subst hx; decide)
  have h2 : spanDigits (b ++ ' ' :: '+' :: (c ++ ',' :: (d ++ ' ' :: '@' :: '@' :: rest)))
      = (b, ' ' :: '+' :: (c ++ ',' :: (d ++ ' ' :: '@' :: '@' :: rest))) :=
    spanDigits_append _ _ hdb (by intro x hx; simp at hx; subst hx; decide)
  have h3 : spanDigits (c ++ ',' :: (d ++ ' ' :: '@' :: '@' :: rest))
      = (c, ',' :: (d ++ ' ' :: '@' :: '@' :: rest)) :=
    spanDigits_append _ _ hdc (by intro x hx; simp at hx; subst hx; decide)
  have h4 : spanDigits (d ++ ' ' :: '@' :: '@' :: rest) = (d, ' ' :: '@' :: '@' :: rest) :=
    spanDigits_append _ _ hdd (by intro x hx; simp at hx; subst hx; decide)
  show afterDash (a ++ ',' :: (b ++ ' ' :: '+' :: (c ++ ',' :: (d ++ ' ' :: '@' :: '@' :: rest))))
      = some (a, b, c, d, rest)
  unfold afterDash
  rw [h1]
  dsimp only
  rw [if_neg ha, commaPart_cons_comma, h2]
  dsimp only
  show afterPlus a b (c ++ ',' :: (d ++ ' ' :: '@' :: '@' :: rest)) = some (a, b, c, d, rest)
  unfold afterPlus
  rw [h3]
  dsimp only
  rw [if_neg hcne, commaPart_cons_comma, h4]
  rfl

theorem mh_none_head (c : Char) (t : List Char) (hc : c ≠ '@') :
    matchHunkHeader (c :: t) = none := by
  cases hm : matchHunkHeader (c :: t) with
  | none => rfl
  | some tup =>
    obtain ⟨o1, o2, n1, n2, r⟩ := tup
    obtain ⟨_, _, _, _, _, _, ⟨t2, hsh⟩, _⟩ := mh_inv hm
    injection hsh with h1 _
    exact absurd h1 hc

theorem mh_none_nil : matchHunkHeader [] = none := rfl

/-! ### `reverseLine` versus the parser -/

theorem reverseLine_header_data (line : String) {o1 o2 n1 n2 rest : List Char}
    (h : matchHunkHeader line.data = some (o1, o2, n1, n2, rest)) :
    (reverseLine line).data = '@' :: '@' :: ' ' :: '-' ::
      (n1 ++ ',' :: ((if n2 = [] then ['1'] else n2) ++ ' ' :: '+' ::
        (o1 ++ ',' :: ((if o2 = [] then ['1'] else o2) ++ ' ' :: '@' :: '@' :: rest)))) := by
  obtain ⟨_, _, _, _, _, _, ⟨t, hsh⟩, _⟩ := mh_inv h
  have hplus : startsB line "+" = false := by
    unfold startsB
    rw [hsh]
    show listPre ['+'] ('@' :: '@' :: ' ' :: '-' :: t) = false
    simp [listPre]
  have hminus : startsB line "-" = false := by
    unfold startsB
    rw [hsh]
    show listPre ['-'] ('@' :: '@' :: ' ' :: '-' :: t) = false
    simp [listPre]
  unfold reverseLine
  rw [if_neg (by simp [hplus]), if_neg (by simp [hminus]), h]
  show "@@ -".data ++ n1 ++ ',' :: (if n2 = [] then ['1'] else n2) ++
      " +".data ++ o1 ++ ',' :: (if o2 = [] then ['1'] else o2) ++ " @@".data ++ rest = _
  have e1 : "@@ -".data = ['@', '@', ' ', '-'] := rfl
  have e2 : " +".data = [' ', '+'] := rfl
  have e3 : " @@".data = [' ', '@', '@'] := rfl
  rw [e1, e2, e3]
  simp [List.append_assoc]

theorem reverseLine_parse (line : String) {o1 o2 n1 n2 rest : List Char}
    (h : matchHunkHeader line.data = some (o1, o2, n1, n2, rest)) :
    matchHunkHeader (reverseLine line).data =
      some (n1, (if n2 = [] then ['1'] else n2), o1, (if o2 = [] then ['1'] else o2), rest) := by
  obtain ⟨ho1ne, ho1d, ho2d, hn1ne, hn1d, hn2d, _, _⟩ := mh_inv h
  rw [reverseLine_header_data line h]
  refine mh_build n1 _ o1 _ rest hn1ne hn1d ?_ ho1ne ho1d ?_
  · split
    · intro x hx; simp at hx; subst hx; decide
    · exact hn2d
  · split
    · intro x hx; simp at hx; subst hx; decide
    · exact ho2d

theorem hunkOfHeader_swap (o1 o2 n1 n2 : List Char) :
    hunkOfHeader n1 (if n2 = [] then ['1'] else n2) o1 (if o2 = [] then ['1'] else o2)
      = swapHunk (hunkOfHeader o1 o2 n1 n2) := by
  unfold hunkOfHeader swapHunk
  have d1 : digitsToNat ['1'] = 1 := rfl
  by_cases h2 : n2 = [] <;> by_cases h4 : o2 = [] <;>
    simp [h2, h4, d1]

theorem optToList_map (f : Hunk → Hunk) (cur : Option Hunk) :
    (cur.map f).toList = cur.toList.map f := by
  cases cur <;> rfl

theorem parseStep_none_cur (line : String) (acc : List Hunk)
    (hmh : matchHunkHeader line.data = none) : parseStep line none acc = (none, acc) := by
  unfold parseStep
  rw [hmh]

theorem parseStep_other (line : String) (h0 : Hunk) (acc : List Hunk)
    (hmh : matchHunkHeader line.data = none)
    (hm : (startsB line "-" && !(startsB line "---")) = false)
    (hp : (startsB line "+" && !(startsB line "+++")) = false) :
    parseStep line (some h0) acc = (some h0, acc) := by
  unfold parseStep
  rw [hmh]
  dsimp only
  rw [hm, hp]
  rfl

theorem parseStep_remove (line : String) (h0 : Hunk) (acc : List Hunk)
    (hmh : matchHunkHeader line.data = none)
    (hm : (startsB line "-" && !(startsB line "---")) = true) :
    parseStep line (some h0) acc
      = (some { h0 with removals := h0.removals ++ [dropStr line 1] }, acc) := by
  unfold parseStep
  rw [hmh]
  dsimp only
  rw [hm]
  rfl

theorem parseStep_add (line : String) (h0 : Hunk) (acc : List Hunk)
    (hmh : matchHunkHeader line.data = none)
    (hm : (startsB line "-" && !(startsB line "---")) = false)
    (hp : (startsB line "+" && !(startsB line "+++")) = true) :
    parseStep line (some h0) acc
      = (some { h0 with additions := h0.additions ++ [dropStr line 1] }, acc) := by
  unfold parseStep
  rw [hmh]
  dsimp only
  rw [hm, hp]
  rfl

theorem parseStep_header (line : String) (cur : Option Hunk) (acc : List Hunk)
    {o1 o2 n1 n2 r : List Char} (hmh : matchHunkHeader line.data = some (o1, o2, n1, n2, r)) :
    parseStep line cur acc = (some (hunkOfHeader o1 o2 n1 n2), acc ++ cur.toList) := by
  unfold parseStep
  rw [hmh]

/-- The key simulation step: reversing a line commutes with one parser step,
up to swapping every hunk — provided the line does not start with `+--` or
`-++` (those two shapes flip into the ignored `---`/`+++` file-header
forms). -/
theorem parseStep_rev (line : String) (cur : Option Hunk) (acc : List Hunk)
    (hpm : startsB line "+--" = false) (hmp : startsB line "-++" = false) :
    parseStep (reverseLine line) (cur.map swapHunk) (acc.map swapHunk)
      = ((parseStep line cur acc).1.map swapHunk, (parseStep line cur acc).2.map swapHunk) := by
  cases hmh : matchHunkHeader line.data with
  | some tup =>
    obtain ⟨o1, o2, n1, n2, r⟩ := tup
    rw [parseStep_header line cur acc hmh,
      parseStep_header (reverseLine line) (cur.map swapHunk) (acc.map swapHunk)
        (reverseLine_parse line hmh)]
    rw [hunkOfHeader_swap]
    simp [List.map_append, optToList_map]
  | none =>
    cases hld : line.data with
    | nil =>
      have hrl : reverseLine line = line := by
        unfold reverseLine
        rw [if_neg (by simp [startsB, listPre, hld]), if_neg (by simp [startsB, listPre, hld]),
          hmh]
      rw [hrl]
      cases cur with
      | none =>
        dsimp only [Option.map]
        rw [parseStep_none_cur line _ hmh, parseStep_none_cur line _ hmh]
      | some h0 =>
        dsimp only [Option.map]
        rw [parseStep_other line h0 acc hmh (by simp [startsB, listPre, hld])
            (by simp [startsB, listPre, hld]),
          parseStep_other line (swapHunk h0) (acc.map swapHunk) hmh
            (by simp [startsB, listPre, hld]) (by simp [startsB, listPre, hld])]
    | cons c body =>
      have hdropS : dropStr line 1 = String.mk body := by
        unfold dropStr
        rw [hld]
        rfl
      by_cases hcp : c = '+'
      · subst hcp
        by_cases h3p : startsB line "+++" = true
        · have hrl : reverseLine line = line := by
            unfold reverseLine
            rw [if_neg (by simp [h3p]), if_neg (by simp [startsB, listPre, hld]), hmh]
          have hmfalse : (startsB line "-" && !(startsB line "---")) = false := by
            simp [startsB, listPre, hld]
          have hpfalse : (startsB line "+" && !(startsB line "+++")) = false := by
            simp [h3p]
          rw [hrl]
          cases cur with
          | none =>
            dsimp only [Option.map]
            rw [parseStep_none_cur line _ hmh, parseStep_none_cur line _ hmh]
          | some h0 =>
            dsimp only [Option.map]
            rw [parseStep_other line h0 acc hmh hmfalse hpfalse,
              parseStep_other line (swapHunk h0) (acc.map swapHunk) hmh hmfalse hpfalse]
        · have h3pf : startsB line "+++" = false := by
            cases hb : startsB line "+++"
            · rfl
            · exact absurd hb h3p
          have hplus : startsB line "+" = true := by simp [startsB, listPre, hld]
          have hrl : reverseLine line = String.mk ('-' :: body) := by
            unfold reverseLine
            rw [if_pos (by simp [hplus, h3pf]), hld]
            rfl
          have hrevmh : matchHunkHeader (reverseLine line).data = none := by
            rw [hrl]
            exact mh_none_head '-' body (by decide)
          have hbody2 : listPre ['-', '-'] body = false := by
            have : startsB line "+--" = listPre ['-', '-'] body := by
              unfold startsB
              rw [hld]
              show listPre ['+', '-', '-'] ('+' :: body) = listPre ['-', '-'] body
              simp [listPre]
            rw [← this, hpm]
          have hrevminus : (startsB (reverseLine line) "-" && !(startsB (reverseLine line) "---")) = true := by
            rw [hrl]
            unfold startsB
            show (listPre ['-'] ('-' :: body) && !(listPre ['-', '-', '-'] ('-' :: body))) = true
            simp [listPre, hbody2]
          have hrevdrop : dropStr (reverseLine line) 1 = String.mk body := by
            rw [hrl]
            rfl
          have hlp : (startsB line "-" && !(startsB line "---")) = false := by
            simp [startsB, listPre, hld]
          have hla : (startsB line "+" && !(startsB line "+++")) = true := by
            simp [hplus, h3pf]
          cases cur with
          | none =>
            dsimp only [Option.map]
            rw [parseStep_none_cur line _ hmh, parseStep_none_cur (reverseLine line) _ hrevmh]
          | some h0 =>
            dsimp only [Option.map]
            rw [parseStep_add line h0 acc hmh hlp hla,
              parseStep_remove (reverseLine line) (swapHunk h0) (acc.map swapHunk) hrevmh
                hrevminus, hrevdrop, hdropS]
            rfl
      · by_cases hcm : c = '-'
        · subst hcm
          by_cases h3m : startsB line "---" = true
          · have hrl : reverseLine line = line := by
              unfold reverseLine
              rw [if_neg (by simp [startsB, listPre, hld]), if_neg (by simp [h3m]), hmh]
            have hmfalse : (startsB line "-" && !(startsB line "---")) = false := by
              simp [h3m]
            have hpfalse : (startsB line "+" && !(startsB line "+++")) = false := by
              simp [startsB, listPre, hld]
            rw [hrl]
            cases cur with
            | none =>
              dsimp only [Option.map]
              rw [parseStep_none_cur line _ hmh, parseStep_none_cur line _ hmh]
            | some h0 =>
              dsimp only [Option.map]
              rw [parseStep_other line h0 acc hmh hmfalse hpfalse,
                parseStep_other line (swapHunk h0) (acc.map swapHunk) hmh hmfalse hpfalse]
          · have h3mf : startsB line "---" = false := by
              cases hb : startsB line "---"
              · rfl
              · exact absurd hb h3m
            have hminus : startsB line "-" = true := by simp [startsB, listPre, hld]
            have hrl : reverseLine line = String.mk ('+' :: body) := by
              unfold reverseLine
              rw [if_neg (by simp [startsB, listPre, hld]), if_pos (by simp [hminus, h3mf]), hld]
              rfl
            have hrevmh : matchHunkHeader (reverseLine line).data = none := by
              rw [hrl]
              exact mh_none_head '+' body (by decide)
            have hbody2 : listPre ['+', '+'] body = false := by
              have : startsB line "-++" = listPre ['+', '+'] body := by
                unfold startsB
                rw [hld]
                show listPre ['-', '+', '+'] ('-' :: body) = listPre ['+', '+'] body
                simp [listPre]
              rw [← this, hmp]
            have hrevminus : (startsB (reverseLine line) "-" && !(startsB (reverseLine line) "---")) = false := by
              rw [hrl]
              unfold startsB
              show (listPre ['-'] ('+' :: body) && !(listPre ['-', '-', '-'] ('+' :: body))) = false
              simp [listPre]
            have hrevplus : (startsB (reverseLine line) "+" && !(startsB (reverseLine line) "+++")) = true := by
              rw [hrl]
              unfold startsB
              show (listPre ['+'] ('+' :: body) && !(listPre ['+', '+', '+'] ('+' :: body))) = true
              simp [listPre, hbody2]
            have hrevdrop : dropStr (reverseLine line) 1 = String.mk body := by
              rw [hrl]
              rfl
            have hlm : (startsB line "-" && !(startsB line "---")) = true := by
              simp [hminus, h3mf]
            cases cur with
            | none =>
              dsimp only [Option.map]
              rw [parseStep_none_cur line _ hmh, parseStep_none_cur (reverseLine line) _ hrevmh]
            | some h0 =>
              dsimp only [Option.map]
              rw [parseStep_remove line h0 acc hmh hlm,
                parseStep_add (reverseLine line) (swapHunk h0) (acc.map swapHunk) hrevmh
                  hrevminus hrevplus, hrevdrop, hdropS]
              rfl
        · have hmfalse : (startsB line "-" && !(startsB line "---")) = false := by
            simp [startsB, listPre, hld]
            intro h
            exact absurd h.symm hcm
          have hpfalse : (startsB line "+" && !(startsB line "+++")) = false := by
            simp [startsB, listPre, hld]
            intro h
            exact absurd h.symm hcp
          have hrl : reverseLine line = line := by
            unfold reverseLine
            rw [if_neg (by simp [hpfalse]), if_neg (by simp [hmfalse]), hmh]
          rw [hrl]
          cases cur with
          | none =>
            dsimp only [Option.map]
            rw [parseStep_none_cur line _ hmh, parseStep_none_cur line _ hmh]
          | some h0 =>
            dsimp only [Option.map]
            rw [parseStep_other line h0 acc hmh hmfalse hpfalse,
              parseStep_other line (swapHunk h0) (acc.map swapHunk) hmh hmfalse hpfalse]

theorem parseUDGo_rev : ∀ (lines : List String),
    (∀ l ∈ lines, startsB l "+--" = false ∧ startsB l "-++" = false) →
    ∀ (cur : Option Hunk) (acc : List Hunk),
    parseUDGo (lines.map reverseLine) (cur.map swapHunk) (acc.map swapHunk)
      = (parseUDGo lines cur acc).map swapHunk := by
  intro lines
  induction lines with
  | nil =>
    intro _ cur acc
    show (acc.map swapHunk) ++ (cur.map swapHunk).toList = (acc ++ cur.toList).map swapHunk
    rw [optToList_map, List.map_append]
  | cons line rest ih =>
    intro hl cur acc
    have hline := hl line (List.mem_cons_self line rest)
    show parseUDGo (rest.map reverseLine)
        (parseStep (reverseLine line) (cur.map swapHunk) (acc.map swapHunk)).1
        (parseStep (reverseLine line) (cur.map swapHunk) (acc.map swapHunk)).2
      = (parseUDGo rest (parseStep line cur acc).1 (parseStep line cur acc).2).map swapHunk
    rw [parseStep_rev line cur acc hline.1 hline.2]
    exact ih (fun l hl2 => hl l (List.mem_cons_of_mem _ hl2))
      (parseStep line cur acc).1 (parseStep line cur acc).2

theorem noNl_append {X Y : List Char} (hx : '\n' ∉ X) (hy : '\n' ∉ Y) : '\n' ∉ X ++ Y := by
  intro hm
  rcases List.mem_append.mp hm with h | h
  · exact hx h
  · exact hy h

theorem noNl_cons {c : Char} {t : List Char} (hc : c ≠ '\n') (ht : '\n' ∉ t) :
    '\n' ∉ c :: t := by
  intro hm
  rcases List.mem_cons.mp hm with h | h
  · exact hc h.symm
  · exact ht h

theorem noNl_digits {ds : List Char} (hd : ∀ c ∈ ds, c.isDigit = true) : '\n' ∉ ds := by
  intro hm
  exact absurd (hd _ hm) (by decide)

theorem reverseLine_noNl (line : String) (h : noNlS line) : noNlS (reverseLine line) := by
  unfold reverseLine
  split
  · intro hmem
    rcases List.mem_cons.mp hmem with h1 | h1
    · exact absurd h1 (by decide)
    · exact h (List.mem_of_mem_drop h1)
  · split
    · intro hmem
      rcases List.mem_cons.mp hmem with h1 | h1
      · exact absurd h1 (by decide)
      · exact h (List.mem_of_mem_drop h1)
    · split
      · rename_i o1 o2 n1 n2 rest heq
        obtain ⟨_, ho1d, ho2d, _, hn1d, hn2d, _, ⟨pre, hpre⟩⟩ := mh_inv heq
        show '\n' ∉ ("@@ -".data ++ n1 ++ ',' :: (if n2 = [] then ['1'] else n2) ++
          " +".data ++ o1 ++ ',' :: (if o2 = [] then ['1'] else o2) ++ " @@".data ++ rest)
        have hrest : '\n' ∉ rest := by
          intro hm
          apply h
          rw [hpre]
          exact List.mem_append.mpr (Or.inr hm)
        have hif1 : '\n' ∉ (',' :: (if n2 = [] then ['1'] else n2)) := by
          refine noNl_cons (by decide) ?_
          by_cases hn2 : n2 = []
          · rw [if_pos hn2]
            decide
          · rw [if_neg hn2]
            exact noNl_digits hn2d
        have hif2 : '\n' ∉ (',' :: (if o2 = [] then ['1'] else o2)) := by
          refine noNl_cons (by decide) ?_
          by_cases ho2 : o2 = []
          · rw [if_pos ho2]
            decide
          · rw [if_neg ho2]
            exact noNl_digits ho2d
        exact noNl_append (noNl_append (noNl_append (noNl_append (noNl_append (noNl_append
          (noNl_append (by decide) (noNl_digits hn1d)) hif1) (by decide))
          (noNl_digits ho1d)) hif2) (by decide)) hrest
      · exact h

theorem splitLines_createReverseDiff (d : String) :
    splitLines (createReverseDiff d) = (splitLines d).map reverseLine := by
  unfold createReverseDiff
  refine splitLines_joinLines _ ?_ ?_
  · intro hemp
    exact splitLines_ne_nil d (List.map_eq_nil_iff.mp hemp)
  · intro l hl
    rcases List.mem_map.mp hl with ⟨l0, hl0, rfl⟩
    exact reverseLine_noNl l0 (mem_splitLines_noNl d l0 hl0)

theorem parseUnifiedDiff_rev (d : String)
    (hl : ∀ l ∈ splitLines d, startsB l "+--" = false ∧ startsB l "-++" = false) :
    parseUnifiedDiff (splitLines (createReverseDiff d))
      = (parseUnifiedDiff (splitLines d)).map swapHunk := by
  rw [splitLines_createReverseDiff]
  exact parseUDGo_rev (splitLines d) hl none []

/-! ### Claim C1 -/

/-- Claim C1, amended: the round trip holds for every diff whose parsed
hunks fit the content (`HunksFit`: hunks in increasing non-overlapping
order, removal lines exactly the old lines at `oldStart`, and `newStart`
consistent with the accumulated line shift — what every well-formed unified
diff satisfies), with a nonempty result and no body line starting in `+--`
or `-++`.  For arbitrary `-`/`+`/context diffs with non-overlapping hunks
the original claim is false (see the counterexample: a header whose
`newStart` does not match its position breaks the inverse). -/
theorem C1_reverse_roundtrip (c d : String) (L2 : List String)
    (fit : HunksFit 0 0 (parseUnifiedDiff (splitLines d)) (splitLines c) L2)
    (hL2 : L2 ≠ [])
    (hlines : ∀ l ∈ splitLines d, startsB l "+--" = false ∧ startsB l "-++" = false) :
    applyUnifiedDiff c d = some (joinLines L2) ∧
    applyUnifiedDiff (joinLines L2) (createReverseDiff d) = some c := by
  have hfwd : applyHunks (parseUnifiedDiff (splitLines d)) (splitLines c) = L2 := by
    have hfit := applyHunks_fit fit [] rfl
    simpa using hfit
  constructor
  · unfold applyUnifiedDiff
    rw [hfwd]
  · unfold applyUnifiedDiff
    rw [parseUnifiedDiff_rev d hlines]
    have hnlL2 : ∀ s ∈ L2, noNlS s :=
      fit_noNl fit (mem_splitLines_noNl c) (parseUnifiedDiff_noNl d)
    rw [splitLines_joinLines L2 hL2 hnlL2]
    have hswap := applyHunks_fit (HunksFit.swap fit) [] rfl
    simp only [List.nil_append] at hswap
    rw [hswap, joinLines_splitLines]

/-- Witness for C1 on a well-formed single-hunk diff. -/
theorem C1_reverse_roundtrip_witness :
    applyUnifiedDiff "a\nb\nc" "@@ -2,1 +2,1 @@\n-b\n+B" = some (joinLines ["a", "B", "c"]) ∧
    applyUnifiedDiff (joinLines ["a", "B", "c"]) (createReverseDiff "@@ -2,1 +2,1 @@\n-b\n+B")
      = some "a\nb\nc" := by
  have hp : parseUnifiedDiff (splitLines "@@ -2,1 +2,1 @@\n-b\n+B")
      = [⟨2, 1, 2, 1, ["b"], ["B"]⟩] := by decide
  have hsc : splitLines "a\nb\nc" = ["a", "b", "c"] := by decide
  have fit : HunksFit 0 0 (parseUnifiedDiff (splitLines "@@ -2,1 +2,1 @@\n-b\n+B"))
      (splitLines "a\nb\nc") ["a", "B", "c"] := by
    rw [hp, hsc]
    have hstep := HunksFit.cons 0 0 (⟨2, 1, 2, 1, ["b"], ["B"]⟩ : Hunk) [] ["a"] ["c"] ["c"]
      (by decide) (by decide) (HunksFit.nil _ _ _)
    simpa using hstep
  exact C1_reverse_roundtrip "a\nb\nc" "@@ -2,1 +2,1 @@\n-b\n+B" ["a", "B", "c"] fit
    (by decide) (by decide)

/-! ### Claim C9 -/

theorem checkCtx_false_iff (fl : List String) : ∀ (run : List String) (pos : Int),
    checkCtx fl pos run = false ↔
      ∃ (j : Nat) (cl : String), run[j]? = some cl ∧ intGet? fl (pos + (j : Int)) ≠ some cl := by
  intro run
  induction run with
  | nil =>
    intro pos
    constructor
    · intro h
      simp [checkCtx] at h
    · rintro ⟨j, cl, hj, _⟩
      simp at hj
  | cons c rest ih =>
    intro pos
    unfold checkCtx
    by_cases hg : intGet? fl pos = some c
    · rw [if_pos hg, ih (pos + 1)]
      constructor
      · rintro ⟨j, cl, hj, hne⟩
        refine ⟨j + 1, cl, by simpa using hj, ?_⟩
        have e : pos + ((j : Nat) + 1 : Nat) = pos + 1 + (j : Int) := by push_cast; ring
        rw [e]
        exact hne
      · rintro ⟨j, cl, hj, hne⟩
        cases j with
        | zero =>
          simp at hj
          subst hj
          have e : pos + ((0 : Nat) : Int) = pos := by push_cast; ring
          rw [e] at hne
          exact absurd hg hne
        | succ j2 =>
          refine ⟨j2, cl, by simpa using hj, ?_⟩
          have e : pos + 1 + (j2 : Int) = pos + ((j2 + 1 : Nat) : Int) := by push_cast; ring
          rw [e]
          exact hne
    · rw [if_neg hg]
      constructor
      · intro _
        refine ⟨0, c, by simp, ?_⟩
        have e : pos + ((0 : Nat) : Int) = pos := by push_cast; ring
        rw [e]
        exact hg
      · intro _
        rfl

theorem validateScan_false_iff (fl : List String) : ∀ (ls : List String),
    validateScan fl ls = false ↔
      ∃ pre line rest, ls = pre ++ line :: rest ∧
      ∃ o1 o2 n1 n2 r, matchHunkHeader line.data = some (o1, o2, n1, n2, r) ∧
      ∃ (j : Nat) (cl : String), (ctxRun rest)[j]? = some cl ∧
        intGet? fl (((digitsToNat o1 : Int) - 1) + (j : Int)) ≠ some cl := by
  intro ls
  induction ls with
  | nil =>
    constructor
    · intro h
      simp [validateScan] at h
    · rintro ⟨pre, line, rest, habs, _⟩
      cases pre <;> simp at habs
  | cons line0 rest0 ih =>
    unfold validateScan
    cases hmh : matchHunkHeader line0.data with
    | some tup =>
      obtain ⟨o1, o2, n1, n2, r⟩ := tup
      dsimp only
      by_cases hck : checkCtx fl ((digitsToNat o1 : Int) - 1) (ctxRun rest0) = true
      · rw [if_pos hck, ih]
        constructor
        · rintro ⟨pre, line, rest, hsplit, hex⟩
          exact ⟨line0 :: pre, line, rest, by rw [List.cons_append, hsplit], hex⟩
        · rintro ⟨pre, line, rest, hsplit, hex⟩
          cases pre with
          | nil =>
            simp only [List.nil_append, List.cons.injEq] at hsplit
            obtain ⟨h1, h2⟩ := hsplit
            subst h1
            subst h2
            obtain ⟨o1q, o2q, n1q, n2q, rq, hmhq, j, cl, hj, hne⟩ := hex
            rw [hmh] at hmhq
            simp only [Option.some_inj, Prod.mk.injEq] at hmhq
            obtain ⟨e1, _, _, _, _⟩ := hmhq
            subst e1
            have hfalse := (checkCtx_false_iff fl (ctxRun rest0)
              ((digitsToNat o1 : Int) - 1)).mpr ⟨j, cl, hj, hne⟩
            rw [hfalse] at hck
            cases hck
          | cons p pre2 =>
            simp only [List.cons_append, List.cons.injEq] at hsplit
            obtain ⟨h1, h2⟩ := hsplit
            exact ⟨pre2, line, rest, h2, hex⟩
      · have hckf : checkCtx fl ((digitsToNat o1 : Int) - 1) (ctxRun rest0) = false := by
          cases hb : checkCtx fl ((digitsToNat o1 : Int) - 1) (ctxRun rest0)
          · rfl
          · exact absurd hb hck
        rw [if_neg hck]
        constructor
        · intro _
          obtain ⟨j, cl, hj, hne⟩ := (checkCtx_false_iff fl (ctxRun rest0)
            ((digitsToNat o1 : Int) - 1)).mp hckf
          exact ⟨[], line0, rest0, rfl, o1, o2, n1, n2, r, hmh, j, cl, hj, hne⟩
        · intro _
          rfl
    | none =>
      dsimp only
      rw [ih]
      constructor
      · rintro ⟨pre, line, rest, hsplit, hex⟩
        exact ⟨line0 :: pre, line, rest, by rw [List.cons_append, hsplit], hex⟩
      · rintro ⟨pre, line, rest, hsplit, hex⟩
        cases pre with
        | nil =>
          simp only [List.nil_append, List.cons.injEq] at hsplit
          obtain ⟨h1, h2⟩ := hsplit
          subst h1
          obtain ⟨o1q, o2q, n1q, n2q, rq, hmhq, _⟩ := hex
          rw [hmh] at hmhq
          cases hmhq
        | cons p pre2 =>
          simp only [List.cons_append, List.cons.injEq] at hsplit
          obtain ⟨h1, h2⟩ := hsplit
          exact ⟨pre2, line, rest, h2, hex⟩

/-- Claim C9: `validatePatch` returns `false` exactly when some hunk header
line of the diff is followed by a contiguous run of context lines among
which some line at offset `j` disagrees with the file's line at 1-indexed
position `oldStart + j` (`intGet?` is `none` both past end-of-file and
before the start, so running out of file counts as a mismatch); in
particular a hunk with no context lines directly after its header
contributes no `j` and imposes no constraint. -/
theorem C9_validatePatch_iff (content : String) (patch : Patch) :
    validatePatch content patch = false ↔
      ∃ pre line rest, splitLines patch.diff = pre ++ line :: rest ∧
      ∃ o1 o2 n1 n2 r, matchHunkHeader line.data = some (o1, o2, n1, n2, r) ∧
      ∃ (j : Nat) (cl : String), (ctxRun rest)[j]? = some cl ∧
        intGet? (splitLines content) (((digitsToNat o1 : Int) - 1) + (j : Int)) ≠ some cl :=
  validateScan_false_iff (splitLines content) (splitLines patch.diff)
/-! ### Claim C6 -/

theorem mem_firstKeys_iff (k : String) : ∀ l : List Conflict,
    k ∈ firstKeys l ↔ k ∈ l.map (fun c => generatePatternKey c.message) := by
  intro l
  induction l with
  | nil => simp [firstKeys]
  | cons c rest ih =>
    unfold firstKeys
    rw [List.map_cons]
    by_cases hk : k = generatePatternKey c.message
    · subst hk
      simp
    · simp only [List.mem_cons, List.mem_filter, bne_iff_ne, ne_eq]
      constructor
      · rintro (h | ⟨h1, _⟩)
        · exact Or.inl h
        · exact Or.inr (ih.mp h1)
      · rintro (h1 | h1)
        · exact Or.inl h1
        · exact Or.inr ⟨ih.mpr h1, hk⟩

theorem firstKeys_nodup : ∀ l : List Conflict, (firstKeys l).Nodup := by
  intro l
  induction l with
  | nil => simp [firstKeys]
  | cons c rest ih =>
    unfold firstKeys
    refine List.Nodup.cons ?_ (List.Nodup.filter _ ih)
    intro hmem
    have h2 := (List.mem_filter.mp hmem).2
    simp at h2

theorem firstKeys_append (l : List Conflict) (c : Conflict) :
    firstKeys (l ++ [c]) =
      if generatePatternKey c.message ∈ l.map (fun x => generatePatternKey x.message)
      then firstKeys l else firstKeys l ++ [generatePatternKey c.message] := by
  induction l with
  | nil => simp [firstKeys]
  | cons d ds ih =>
    show firstKeys (d :: (ds ++ [c])) = _
    unfold firstKeys
    rw [ih]
    by_cases hmem : generatePatternKey c.message ∈ ds.map (fun x => generatePatternKey x.message)
    · rw [if_pos hmem, if_pos (by simp [hmem])]
    · rw [if_neg hmem]
      by_cases heq : generatePatternKey c.message = generatePatternKey d.message
      · rw [if_pos (by simp [heq])]
        rw [List.filter_append]
        simp [heq]
      · rw [if_neg (by simp [heq, hmem])]
        rw [List.filter_append]
        have hb : (generatePatternKey c.message != generatePatternKey d.message) = true := by
          simp [heq]
        simp [List.filter_cons, hb]

theorem find?_append_some_of {α : Type} (p : α → Bool) : ∀ (l1 l2 : List α) (x : α),
    l1.find? p = some x → (l1 ++ l2).find? p = some x := by
  intro l1
  induction l1 with
  | nil => intro l2 x h; simp [List.find?] at h
  | cons a t ih =>
    intro l2 x h
    by_cases hp : p a = true
    · rw [List.find?_cons_of_pos _ hp] at h
      rw [List.cons_append, List.find?_cons_of_pos _ hp]
      exact h
    · rw [List.find?_cons_of_neg _ hp] at h
      rw [List.cons_append, List.find?_cons_of_neg _ hp]
      exact ih l2 x h

theorem find?_append_none_of {α : Type} (p : α → Bool) : ∀ (l1 l2 : List α),
    l1.find? p = none → (l1 ++ l2).find? p = l2.find? p := by
  intro l1
  induction l1 with
  | nil => intro l2 _; rfl
  | cons a t ih =>
    intro l2 h
    by_cases hp : p a = true
    · rw [List.find?_cons_of_pos _ hp] at h
      exact absurd h (by simp)
    · rw [List.find?_cons_of_neg _ hp] at h
      rw [List.cons_append, List.find?_cons_of_neg _ hp]
      exact ih l2 h

theorem addConflict_inv (done : List Conflict) (acc : List ErrorCluster) (c : Conflict)
    (h : clusterInv done acc) : clusterInv (done ++ [c]) (addConflict acc c) := by
  obtain ⟨hnd, hinst, hrep, hpat⟩ := h
  by_cases hany : acc.any (fun cl => cl.pattern == generatePatternKey c.message) = true
  · -- the key already has a cluster: only that cluster gains the conflict
    have hupd : addConflict acc c = acc.map (fun cl =>
        if cl.pattern == generatePatternKey c.message
        then { cl with instances := cl.instances ++ [c] } else cl) := by
      simp only [addConflict]
      rw [if_pos hany]
    have hpatpres : (addConflict acc c).map (fun cl => cl.pattern)
        = acc.map (fun cl => cl.pattern) := by
      rw [hupd, List.map_map]
      apply List.map_congr_left
      intro cl _
      show (if cl.pattern == generatePatternKey c.message
        then { cl with instances := cl.instances ++ [c] } else cl).pattern = cl.pattern
      split <;> rfl
    have hkmem : generatePatternKey c.message ∈ acc.map (fun cl => cl.pattern) := by
      obtain ⟨cl, hcl, hbeq⟩ := List.any_eq_true.mp hany
      exact List.mem_map.mpr ⟨cl, hcl, beq_iff_eq.mp hbeq⟩
    refine ⟨by rw [hpatpres]; exact hnd, ?_, ?_, ?_⟩
    · intro cl' hcl'
      rw [hupd] at hcl'
      obtain ⟨cl, hcl, hcl'eq⟩ := List.mem_map.mp hcl'
      subst hcl'eq
      by_cases hb : (cl.pattern == generatePatternKey c.message) = true
      · rw [if_pos hb]
        dsimp only
        rw [hinst cl hcl, List.filter_append]
        have hc : (generatePatternKey c.message == cl.pattern) = true := by
          rw [beq_iff_eq.mp hb]
          exact beq_self_eq_true _
        simp [List.filter_cons, hc]
      · rw [if_neg hb]
        rw [hinst cl hcl, List.filter_append]
        have hc : (generatePatternKey c.message == cl.pattern) = false := by
          rw [beq_eq_false_iff_ne]
          intro he
          rw [he] at hb
          simp at hb
        simp [List.filter_cons, hc]
    · intro cl' hcl'
      rw [hupd] at hcl'
      obtain ⟨cl, hcl, hcl'eq⟩ := List.mem_map.mp hcl'
      subst hcl'eq
      have hfind := hrep cl hcl
      by_cases hb : (cl.pattern == generatePatternKey c.message) = true
      · rw [if_pos hb]
        dsimp only
        exact find?_append_some_of _ done [c] _ hfind
      · rw [if_neg hb]
        exact find?_append_some_of _ done [c] _ hfind
    · rw [hpatpres, hpat, firstKeys_append,
        if_pos ((mem_firstKeys_iff _ done).mp (hpat ▸ hkmem))]
  · -- fresh key: a new cluster holding just this conflict is appended
    have hnotany : ∀ cl ∈ acc, (cl.pattern == generatePatternKey c.message) = false := by
      intro cl hcl
      by_cases hb : (cl.pattern == generatePatternKey c.message) = true
      · exact absurd (List.any_eq_true.mpr ⟨cl, hcl, hb⟩) hany
      · simpa using hb
    have hknotin : generatePatternKey c.message ∉ acc.map (fun cl => cl.pattern) := by
      intro hmem
      obtain ⟨cl, hcl, hcleq⟩ := List.mem_map.mp hmem
      have h2 := hnotany cl hcl
      rw [hcleq] at h2
      simp at h2
    have hkeynotdone : ∀ c' ∈ done,
        ¬((generatePatternKey c'.message == generatePatternKey c.message) = true) := by
      intro c' hc' hbeq
      apply hknotin
      rw [hpat, mem_firstKeys_iff]
      exact List.mem_map.mpr ⟨c', hc', beq_iff_eq.mp hbeq⟩
    have hknotdone : generatePatternKey c.message ∉
        done.map (fun x => generatePatternKey x.message) := by
      intro hmem
      obtain ⟨c', hc', hc'eq⟩ := List.mem_map.mp hmem
      exact hkeynotdone c' hc' (by rw [hc'eq]; exact beq_self_eq_true _)
    have hstep : addConflict acc c = acc ++
        [{ id := "cluster-" ++ natRepr (acc.length + 1),
           pattern := generatePatternKey c.message,
           instances := [c], representative := c }] := by
      simp only [addConflict]
      rw [if_neg hany, List.map_append]
      congr 1
      · rw [show acc.map (fun cl => if cl.pattern == generatePatternKey c.message
            then { cl with instances := cl.instances ++ [c] } else cl) = acc.map id from
          List.map_congr_left (fun cl hcl => by
            rw [if_neg (by simp [hnotany cl hcl])]
            rfl)]
        exact List.map_id acc
      · simp
    rw [hstep]
    refine ⟨?_, ?_, ?_, ?_⟩
    · rw [List.map_append, List.nodup_append]
      refine ⟨hnd, List.nodup_singleton _, ?_⟩
      intro a ha hb
      rw [List.map_cons, List.map_nil, List.mem_singleton] at hb
      dsimp only at hb
      subst hb
      exact hknotin ha
    · intro cl' hcl'
      rcases List.mem_append.mp hcl' with h1 | h1
      · rw [hinst cl' h1, List.filter_append]
        have hc : (generatePatternKey c.message == cl'.pattern) = false := by
          rw [beq_eq_false_iff_ne]
          intro he
          have h2 := hnotany cl' h1
          rw [← he] at h2
          simp at h2
        simp [List.filter_cons, hc]
      · rw [List.mem_singleton] at h1
        subst h1
        dsimp only
        rw [List.filter_append]
        have hdone : done.filter
            (fun x => generatePatternKey x.message == generatePatternKey c.message) = [] := by
          rw [List.filter_eq_nil_iff]
          exact hkeynotdone
        rw [hdone]
        simp [List.filter_cons]
    · intro cl' hcl'
      rcases List.mem_append.mp hcl' with h1 | h1
      · exact find?_append_some_of _ done [c] _ (hrep cl' h1)
      · rw [List.mem_singleton] at h1
        subst h1
        dsimp only
        rw [find?_append_none_of _ done [c] (List.find?_eq_none.mpr hkeynotdone)]
        exact List.find?_cons_of_pos [] (beq_self_eq_true _)
    · rw [List.map_append, List.map_cons, List.map_nil, firstKeys_append,
        if_neg hknotdone, hpat]

theorem clusterErrors_inv (l : List Conflict) : clusterInv l (clusterErrors l) := by
  suffices hgen : ∀ (rest done : List Conflict) (acc : List ErrorCluster), clusterInv done acc →
      clusterInv (done ++ rest) (rest.foldl addConflict acc) by
    have h0 : clusterInv [] ([] : List ErrorCluster) :=
      ⟨List.nodup_nil, by intro cl hcl; simp at hcl, by intro cl hcl; simp at hcl, rfl⟩
    have := hgen l [] [] h0
    simpa [clusterErrors] using this
  intro rest
  induction rest with
  | nil =>
    intro done acc h
    simpa using h
  | cons c rest2 ih =>
    intro done acc h
    have h2 := addConflict_inv done acc c h
    have h3 := ih (done ++ [c]) (addConflict acc c) h2
    rw [List.append_assoc] at h3
    simpa using h3

theorem keysJoinPerm : ∀ (keys : List String) (l : List Conflict), keys.Nodup →
    (∀ c ∈ l, generatePatternKey c.message ∈ keys) →
    ((keys.map (fun k => l.filter (fun c => generatePatternKey c.message == k))).flatten).Perm l := by
  intro keys
  induction keys with
  | nil =>
    intro l _ hcov
    have hl : l = [] := List.eq_nil_iff_forall_not_mem.mpr (fun c hc => by simpa using hcov c hc)
    simp [hl]
  | cons k ks ih =>
    intro l hnd hcov
    rw [List.map_cons, List.flatten_cons]
    have hknotks : k ∉ ks := (List.nodup_cons.mp hnd).1
    have hndks : ks.Nodup := (List.nodup_cons.mp hnd).2
    have hcov2 : ∀ c ∈ l.filter (fun c => !(generatePatternKey c.message == k)),
        generatePatternKey c.message ∈ ks := by
      intro c hc
      have hcl := List.mem_filter.mp hc
      rcases List.mem_cons.mp (hcov c hcl.1) with h2 | h2
      · exfalso
        have h3 := hcl.2
        rw [h2] at h3
        simp at h3
      · exact h2
    have hmaps : ks.map (fun k2 => l.filter (fun c => generatePatternKey c.message == k2))
        = ks.map (fun k2 => (l.filter (fun c => !(generatePatternKey c.message == k))).filter
            (fun c => generatePatternKey c.message == k2)) := by
      apply List.map_congr_left
      intro k2 hk2
      rw [List.filter_filter]
      apply List.filter_congr
      intro c _
      by_cases he : generatePatternKey c.message = k2
      · have hne2 : ¬(k2 = k) := fun h3 => hknotks (h3 ▸ hk2)
        simp [he, hne2]
      · simp [he]
    rw [hmaps]
    have hperm := ih (l.filter (fun c => !(generatePatternKey c.message == k))) hndks hcov2
    refine List.Perm.trans (List.Perm.append_left _ hperm) ?_
    exact List.filter_append_perm _ l

/-- C6: `clusterErrors` partitions the input in order: the empty input gives no
clusters; cluster pattern keys are distinct and listed in order of first
appearance; each cluster's instances are exactly the input conflicts with its
key, in input order; each representative is the first conflict seen for its
key; every input conflict lies in exactly one cluster's instance list; and the
concatenation of all instance lists is a permutation of the input. -/
theorem C6_clusterErrors_partition (l : List Conflict) :
    clusterErrors ([] : List Conflict) = [] ∧
    ((clusterErrors l).map (fun cl => cl.pattern)).Nodup ∧
    ((clusterErrors l).map (fun cl => cl.pattern) = firstKeys l) ∧
    (∀ cl ∈ clusterErrors l,
      cl.instances = l.filter (fun c => generatePatternKey c.message == cl.pattern)) ∧
    (∀ cl ∈ clusterErrors l,
      l.find? (fun c => generatePatternKey c.message == cl.pattern) = some cl.representative) ∧
    (∀ c ∈ l, ∃ cl, cl ∈ clusterErrors l ∧ c ∈ cl.instances ∧
      ∀ cl2 ∈ clusterErrors l, c ∈ cl2.instances → cl2 = cl) ∧
    (((clusterErrors l).map (fun cl => cl.instances)).flatten).Perm l := by
  obtain ⟨hnd, hinst, hrep, hpat⟩ := clusterErrors_inv l
  refine ⟨rfl, hnd, hpat, hinst, hrep, ?_, ?_⟩
  · intro c hc
    have hkey : generatePatternKey c.message ∈ (clusterErrors l).map (fun cl => cl.pattern) := by
      rw [hpat, mem_firstKeys_iff]
      exact List.mem_map.mpr ⟨c, hc, rfl⟩
    obtain ⟨cl, hcl, hcleq⟩ := List.mem_map.mp hkey
    refine ⟨cl, hcl, ?_, ?_⟩
    · rw [hinst cl hcl, List.mem_filter]
      refine ⟨hc, ?_⟩
      rw [hcleq]
      exact beq_self_eq_true _
    · intro cl2 hcl2 hc2
      rw [hinst cl2 hcl2, List.mem_filter] at hc2
      have he2 : generatePatternKey c.message = cl2.pattern := beq_iff_eq.mp hc2.2
      exact List.inj_on_of_nodup_map hnd hcl2 hcl (by rw [← he2, hcleq])
  · have hmm : (clusterErrors l).map (fun cl => cl.instances)
        = ((clusterErrors l).map (fun cl => cl.pattern)).map
            (fun k => l.filter (fun c => generatePatternKey c.message == k)) := by
      rw [List.map_map]
      apply List.map_congr_left
      intro cl hcl
      exact hinst cl hcl
    rw [hmm, hpat]
    apply keysJoinPerm (firstKeys l) l (firstKeys_nodup l)
    intro c hc
    rw [mem_firstKeys_iff]
    exact List.mem_map.mpr ⟨c, hc, rfl⟩

/-! ### Claim C10: the `createPatch` diff through `applyUnifiedDiff` -/

theorem isDigit_ofNat_lt (n : Nat) (h : n < 10) : (Char.ofNat (48 + n)).isDigit = true := by
  interval_cases n <;> decide

theorem natReprGo_digits : ∀ (fuel n : Nat), ∀ c ∈ natReprGo fuel n, c.isDigit = true := by
  intro fuel
  induction fuel with
  | zero => intro n c hc; simp [natReprGo] at hc
  | succ f ih =>
    intro n c hc
    unfold natReprGo at hc
    by_cases h : n < 10
    · rw [if_pos h] at hc
      rw [List.mem_singleton] at hc
      subst hc
      exact isDigit_ofNat_lt n h
    · rw [if_neg h] at hc
      rcases List.mem_append.mp hc with h1 | h1
      · exact ih (n / 10) c h1
      · rw [List.mem_singleton] at h1
        subst h1
        exact isDigit_ofNat_lt (n % 10) (Nat.mod_lt n (by decide))

theorem natReprGo_ne_nil (f n : Nat) : natReprGo (f + 1) n ≠ [] := by
  unfold natReprGo
  by_cases h10 : n < 10
  · rw [if_pos h10]; simp
  · rw [if_neg h10]; simp

theorem foldl_strAppend_data : ∀ (ls : List String) (s : String),
    (ls.foldl (fun a b => a ++ b) s).data = s.data ++ (ls.map String.data).flatten := by
  intro ls
  induction ls with
  | nil => intro s; simp
  | cons a t ih =>
    intro s
    rw [List.foldl_cons, ih (s ++ a)]
    show (s.data ++ a.data) ++ (t.map String.data).flatten = _
    simp [List.append_assoc]

theorem data_strJoin (ls : List String) :
    (String.join ls).data = (ls.map String.data).flatten := by
  show (ls.foldl (fun a b => a ++ b) "").data = _
  rw [foldl_strAppend_data]
  rfl

theorem splitNlAux_joinPieces : ∀ ps : List (List Char), (∀ p ∈ ps, '\n' ∉ p) →
    splitNlAux ((ps.map (fun p => p ++ ['\n'])).flatten) = ps ++ [[]] := by
  intro ps
  induction ps with
  | nil => intro _; rfl
  | cons p ps2 ih =>
    intro hnl
    rw [List.map_cons, List.flatten_cons]
    have ih2 := ih (fun q hq => hnl q (List.mem_cons_of_mem p hq))
    have hmid : splitNlAux ('\n' :: (ps2.map (fun q => q ++ ['\n'])).flatten)
        = [] :: (ps2 ++ [[]]) := by
      obtain ⟨h0, t0, hht⟩ := List.exists_cons_of_ne_nil
        (show ps2 ++ [[]] ≠ [] by simp)
      simp only [splitNlAux]
      rw [ih2, hht]
      simp [hht]
    have hpiece := splitNlAux_append_piece p ('\n' :: (ps2.map (fun q => q ++ ['\n'])).flatten)
      [] (ps2 ++ [[]]) (hnl p (List.mem_cons_self p ps2)) hmid
    rw [show p ++ ['\n'] ++ (ps2.map (fun q => q ++ ['\n'])).flatten
        = p ++ ('\n' :: (ps2.map (fun q => q ++ ['\n'])).flatten) from by simp,
      hpiece]
    simp

theorem splitLines_joinPieces (ls : List String) (hnl : ∀ l ∈ ls, noNlS l) :
    splitLines (String.join (ls.map (fun l => l ++ "\n"))) = ls ++ [""] := by
  unfold splitLines
  rw [show (String.join (ls.map (fun l => l ++ "\n"))).data
      = ((ls.map (fun l => l ++ "\n")).map String.data).flatten from data_strJoin _]
  rw [List.map_map]
  rw [show (String.data ∘ fun l => l ++ "\n") = ((fun p => p ++ ['\n']) ∘ String.data)
      from rfl]
  rw [← List.map_map]
  rw [splitNlAux_joinPieces (ls.map String.data)
    (by intro p hp; rcases List.mem_map.mp hp with ⟨l, hl, rfl⟩; exact hnl l hl)]
  rw [List.map_append, List.map_map]
  rw [show (String.mk ∘ String.data) = id from rfl, List.map_id]
  rfl

theorem parseUDGo_cons (line : String) (rest : List String) (cur : Option Hunk)
    (acc : List Hunk) :
    parseUDGo (line :: rest) cur acc
      = parseUDGo rest (parseStep line cur acc).1 (parseStep line cur acc).2 := rfl

theorem parseUDGo_nil (cur : Option Hunk) (acc : List Hunk) :
    parseUDGo [] cur acc = acc ++ cur.toList := rfl

theorem parseStep_dashLine (a : String) (h : Hunk) (acc : List Hunk)
    (ha : startsB a "--" = false) :
    parseStep ("-" ++ a) (some h) acc
      = (some { h with removals := h.removals ++ [a] }, acc) := by
  have hmh : matchHunkHeader ("-" ++ a).data = none :=
    mh_none_head '-' a.data (by decide)
  have hm : (startsB ("-" ++ a) "-" && !(startsB ("-" ++ a) "---")) = true := by
    have h1 : startsB ("-" ++ a) "-" = true := by
      show listPre ['-'] ('-' :: a.data) = true
      simp [listPre]
    have h2 : startsB ("-" ++ a) "---" = startsB a "--" := by
      show listPre ['-', '-', '-'] ('-' :: a.data) = listPre ['-', '-'] a.data
      simp [listPre]
    rw [h1, h2, ha]
    rfl
  rw [parseStep_remove ("-" ++ a) h acc hmh hm]
  rw [show dropStr ("-" ++ a) 1 = a from string_mk_data a]

theorem parseStep_plusLine (b : String) (h : Hunk) (acc : List Hunk)
    (hb : startsB b "++" = false) :
    parseStep ("+" ++ b) (some h) acc
      = (some { h with additions := h.additions ++ [b] }, acc) := by
  have hmh : matchHunkHeader ("+" ++ b).data = none :=
    mh_none_head '+' b.data (by decide)
  have hm : (startsB ("+" ++ b) "-" && !(startsB ("+" ++ b) "---")) = false := by
    have h1 : startsB ("+" ++ b) "-" = false := by
      show listPre ['-'] ('+' :: b.data) = false
      simp [listPre]
    rw [h1]
    rfl
  have hp : (startsB ("+" ++ b) "+" && !(startsB ("+" ++ b) "+++")) = true := by
    have h1 : startsB ("+" ++ b) "+" = true := by
      show listPre ['+'] ('+' :: b.data) = true
      simp [listPre]
    have h2 : startsB ("+" ++ b) "+++" = startsB b "++" := by
      show listPre ['+', '+', '+'] ('+' :: b.data) = listPre ['+', '+'] b.data
      simp [listPre]
    rw [h1, h2, hb]
    rfl
  rw [parseStep_add ("+" ++ b) h acc hmh hm hp]
  rw [show dropStr ("+" ++ b) 1 = b from string_mk_data b]

theorem parseStep_emptyLine (h : Hunk) (acc : List Hunk) :
    parseStep "" (some h) acc = (some h, acc) :=
  parseStep_other "" h acc mh_none_nil (by decide) (by decide)

theorem parseUDGo_addAll : ∀ (n : List String) (h : Hunk) (acc : List Hunk),
    (∀ l ∈ n, startsB l "++" = false) →
    parseUDGo (n.map (fun b => "+" ++ b) ++ [""]) (some h) acc
      = acc ++ [{ h with additions := h.additions ++ n }] := by
  intro n
  induction n with
  | nil =>
    intro h acc _
    rw [List.map_nil, List.nil_append, parseUDGo_cons, parseStep_emptyLine h acc]
    dsimp only
    rw [parseUDGo_nil]
    simp
  | cons b nb ih =>
    intro h acc hn
    rw [List.map_cons, List.cons_append, parseUDGo_cons,
      parseStep_plusLine b h acc (hn b (List.mem_cons_self b nb))]
    dsimp only
    rw [ih { h with additions := h.additions ++ [b] } acc
      (fun l hl => hn l (List.mem_cons_of_mem b hl))]
    simp [List.append_assoc]

theorem parseUDGo_bodyAll : ∀ (o n : List String) (h : Hunk) (acc : List Hunk),
    (∀ p ∈ o.zip n, p.1 ≠ p.2) →
    (∀ l ∈ o, startsB l "--" = false) →
    (∀ l ∈ n, startsB l "++" = false) →
    parseUDGo (patchBodyAux o n ++ [""]) (some h) acc
      = acc ++ [{ h with removals := h.removals ++ o, additions := h.additions ++ n }] := by
  intro o
  induction o with
  | nil =>
    intro n h acc _ _ hn
    rw [show patchBodyAux [] n = n.map (fun b => "+" ++ b) from rfl,
      parseUDGo_addAll n h acc hn]
    simp
  | cons a ob ih =>
    intro n h acc hz ho hn
    have ha2 := ho a (List.mem_cons_self a ob)
    cases n with
    | nil =>
      rw [show patchBodyAux (a :: ob) [] = ("-" ++ a) :: patchBodyAux ob [] from rfl,
        List.cons_append, parseUDGo_cons, parseStep_dashLine a h acc ha2]
      dsimp only
      rw [ih [] { h with removals := h.removals ++ [a] } acc (by simp)
        (fun l hl => ho l (List.mem_cons_of_mem a hl)) (by simp)]
      simp [List.append_assoc]
    | cons b nb =>
      have hab : a ≠ b := hz (a, b) (by rw [List.zip_cons_cons]; exact List.mem_cons_self _ _)
      rw [show patchBodyAux (a :: ob) (b :: nb)
          = ("-" ++ a) :: ("+" ++ b) :: patchBodyAux ob nb from by
            rw [patchBodyAux]; rw [if_pos hab],
        List.cons_append, parseUDGo_cons, parseStep_dashLine a h acc ha2]
      dsimp only
      rw [List.cons_append, parseUDGo_cons,
        parseStep_plusLine b { h with removals := h.removals ++ [a] } acc
          (hn b (List.mem_cons_self b nb))]
      dsimp only
      rw [ih nb _ acc
        (fun p hp => hz p (by rw [List.zip_cons_cons]; exact List.mem_cons_of_mem _ hp))
        (fun l hl => ho l (List.mem_cons_of_mem a hl))
        (fun l hl => hn l (List.mem_cons_of_mem b hl))]
      simp [List.append_assoc]

theorem patchBodyAux_noNl : ∀ (o n : List String), (∀ l ∈ o, noNlS l) → (∀ l ∈ n, noNlS l) →
    ∀ l ∈ patchBodyAux o n, noNlS l := by
  intro o
  induction o with
  | nil =>
    intro n _ hn l hl
    rw [show patchBodyAux [] n = n.map (fun b => "+" ++ b) from rfl] at hl
    rcases List.mem_map.mp hl with ⟨b, hb, rfl⟩
    exact noNl_append (by decide) (hn b hb)
  | cons a ob ih =>
    intro n ho hn l hl
    cases n with
    | nil =>
      rw [show patchBodyAux (a :: ob) [] = ("-" ++ a) :: patchBodyAux ob [] from rfl] at hl
      rcases List.mem_cons.mp hl with h1 | h1
      · subst h1
        exact noNl_append (by decide) (ho a (List.mem_cons_self a ob))
      · exact ih [] (fun x hx => ho x (List.mem_cons_of_mem a hx))
          (by intro x hx; simp at hx) l h1
    | cons b nb =>
      by_cases hab : a ≠ b
      · rw [show patchBodyAux (a :: ob) (b :: nb)
            = ("-" ++ a) :: ("+" ++ b) :: patchBodyAux ob nb from by
              rw [patchBodyAux]; rw [if_pos hab]] at hl
        rcases List.mem_cons.mp hl with h1 | h1
        · subst h1
          exact noNl_append (by decide) (ho a (List.mem_cons_self a ob))
        rcases List.mem_cons.mp h1 with h2 | h2
        · subst h2
          exact noNl_append (by decide) (hn b (List.mem_cons_self b nb))
        · exact ih nb (fun x hx => ho x (List.mem_cons_of_mem a hx))
            (fun x hx => hn x (List.mem_cons_of_mem b hx)) l h2
      · rw [show patchBodyAux (a :: ob) (b :: nb) = (" " ++ a) :: patchBodyAux ob nb from by
              rw [patchBodyAux]; rw [if_neg hab]] at hl
        rcases List.mem_cons.mp hl with h1 | h1
        · subst h1
          exact noNl_append (by decide) (ho a (List.mem_cons_self a ob))
        · exact ih nb (fun x hx => ho x (List.mem_cons_of_mem a hx))
            (fun x hx => hn x (List.mem_cons_of_mem b hx)) l h1

theorem hunkHeaderData (m n : Nat) :
    ("@@ -1," ++ natRepr m ++ " +1," ++ natRepr n ++ " @@").data
      = '@' :: '@' :: ' ' :: '-' ::
        (['1'] ++ ',' :: (natReprGo (m + 1) m
          ++ ' ' :: '+' :: (['1'] ++ ',' :: (natReprGo (n + 1) n
            ++ ' ' :: '@' :: '@' :: ([] : List Char))))) := by
  show '@' :: '@' :: ' ' :: '-' :: '1' :: ',' ::
      (((natReprGo (m + 1) m ++ [' ', '+', '1', ',']) ++ natReprGo (n + 1) n)
        ++ [' ', '@', '@'])
    = _
  simp [List.append_assoc]

theorem hunkHeaderParse (m n : Nat) :
    matchHunkHeader ("@@ -1," ++ natRepr m ++ " +1," ++ natRepr n ++ " @@").data
      = some (['1'], natReprGo (m + 1) m, ['1'], natReprGo (n + 1) n, []) := by
  rw [hunkHeaderData]
  exact mh_build ['1'] (natReprGo (m + 1) m) ['1'] (natReprGo (n + 1) n) []
    (by simp) (by decide) (natReprGo_digits (m + 1) m) (by simp) (by decide)
    (natReprGo_digits (n + 1) n)

/-- C10, amended: the `createPatch` diff round-trips through
`applyUnifiedDiff` whenever the file path contains no newline, every pair
of same-index old/new lines differs, no old line starts with `--` and no
new line starts with `++`.  (For arbitrary contents the original claim is
false: a common line becomes a context line, which apply ignores while the
positional splice still removes `removals.length` lines from the top — see
the counterexample.) -/
theorem C10_createPatch_roundtrip (fp oldC newC desc : String)
    (hfp : noNlS fp)
    (hz : ∀ p ∈ (splitLines oldC).zip (splitLines newC), p.1 ≠ p.2)
    (ho : ∀ l ∈ splitLines oldC, startsB l "--" = false)
    (hn : ∀ l ∈ splitLines newC, startsB l "++" = false) :
    applyUnifiedDiff oldC (createPatch fp oldC newC desc).diff = some newC := by
  have hde : (createPatch fp oldC newC desc).diff
      = String.join (((["--- a/" ++ fp, "+++ b/" ++ fp,
          "@@ -1," ++ natRepr (splitLines oldC).length ++ " +1,"
            ++ natRepr (splitLines newC).length ++ " @@"]
          ++ patchBodyAux (splitLines oldC) (splitLines newC)).map (fun l => l ++ "\n"))) := rfl
  have hallNl : ∀ l ∈ (["--- a/" ++ fp, "+++ b/" ++ fp,
      "@@ -1," ++ natRepr (splitLines oldC).length ++ " +1,"
        ++ natRepr (splitLines newC).length ++ " @@"]
      ++ patchBodyAux (splitLines oldC) (splitLines newC)), noNlS l := by
    intro l hl
    rcases List.mem_append.mp hl with h1 | h1
    · rcases List.mem_cons.mp h1 with h2 | h2
      · subst h2
        exact noNl_append (by decide) hfp
      rcases List.mem_cons.mp h2 with h3 | h3
      · subst h3
        exact noNl_append (by decide) hfp
      · rw [List.mem_singleton] at h3
        subst h3
        show '\n' ∉ ((("@@ -1,".data
            ++ natReprGo ((splitLines oldC).length + 1) (splitLines oldC).length)
            ++ " +1,".data)
            ++ natReprGo ((splitLines newC).length + 1) (splitLines newC).length)
            ++ " @@".data
        exact noNl_append (noNl_append (noNl_append (noNl_append (by decide)
          (noNl_digits (natReprGo_digits _ _))) (by decide))
          (noNl_digits (natReprGo_digits _ _))) (by decide)
    · exact patchBodyAux_noNl (splitLines oldC) (splitLines newC)
        (mem_splitLines_noNl oldC) (mem_splitLines_noNl newC) l h1
  have hsplit : splitLines (createPatch fp oldC newC desc).diff
      = ("--- a/" ++ fp) :: ("+++ b/" ++ fp) ::
        ("@@ -1," ++ natRepr (splitLines oldC).length ++ " +1,"
          ++ natRepr (splitLines newC).length ++ " @@") ::
        (patchBodyAux (splitLines oldC) (splitLines newC) ++ [""]) := by
    rw [hde, splitLines_joinPieces _ hallNl]
    simp
  have hparse : parseUnifiedDiff (splitLines (createPatch fp oldC newC desc).diff)
      = [{ hunkOfHeader ['1']
            (natReprGo ((splitLines oldC).length + 1) (splitLines oldC).length)
            ['1']
            (natReprGo ((splitLines newC).length + 1) (splitLines newC).length) with
           removals := splitLines oldC, additions := splitLines newC }] := by
    rw [hsplit]
    unfold parseUnifiedDiff
    rw [parseUDGo_cons, parseStep_none_cur ("--- a/" ++ fp) []
      (mh_none_head '-' ("-- a/" ++ fp).data (by decide))]
    dsimp only
    rw [parseUDGo_cons, parseStep_none_cur ("+++ b/" ++ fp) []
      (mh_none_head '+' ("++ b/" ++ fp).data (by decide))]
    dsimp only
    rw [parseUDGo_cons, parseStep_header _ none []
      (hunkHeaderParse (splitLines oldC).length (splitLines newC).length)]
    simp only [Option.toList, List.nil_append]
    rw [parseUDGo_bodyAll (splitLines oldC) (splitLines newC) _ [] hz ho hn]
    simp [hunkOfHeader]
  unfold applyUnifiedDiff
  rw [hparse]
  have hlenO : 0 < (splitLines oldC).length := List.length_pos.mpr (splitLines_ne_nil oldC)
  have hlenN : 0 < (splitLines newC).length := List.length_pos.mpr (splitLines_ne_nil newC)
  have hd1 : digitsToNat ['1'] = 1 := by decide
  simp [applyHunks, applyHunkJS, applyHunkRemove, jsSpliceRemove, jsSpliceInsert, jsIndex,
    hunkOfHeader, hd1, hlenO, hlenN, joinLines_splitLines]

/-- Witness for C10 at `fp = "f"`, `old = "a"`, `new = "b"`. -/
theorem C10_createPatch_roundtrip_witness :
    applyUnifiedDiff "a" (createPatch "f" "a" "b" "d").diff = some "b" :=
  C10_createPatch_roundtrip "f" "a" "b" "d" (by decide) (by decide) (by decide) (by decide)

/-! ### Claim C3: batch failure and rollback -/

theorem any_of_fsGet (fs : FS) (fp c : String) (h : fsGet fs fp = some c) :
    fs.any (fun e => e.1 == fp) = true := by
  unfold fsGet at h
  rcases Option.map_eq_some'.mp h with ⟨e0, hfind, _⟩
  have hp0 := List.find?_some hfind
  have hp : (e0.1 == fp) = true := hp0
  exact List.any_eq_true.mpr ⟨e0, List.mem_of_find?_eq_some hfind, hp⟩

theorem find?_map_set : ∀ (fs : FS) (fp c' : String),
    fs.any (fun e => e.1 == fp) = true →
    (fs.map (fun e => if e.1 == fp then (fp, c') else e)).find? (fun e => e.1 == fp)
      = some (fp, c') := by
  intro fs fp c'
  induction fs with
  | nil => intro h; simp at h
  | cons e t ih =>
    intro h
    rw [List.map_cons]
    by_cases he : (e.1 == fp) = true
    · rw [if_pos he]
      exact List.find?_cons_of_pos _ (by simp)
    · rw [if_neg he]
      rw [List.find?_cons_of_neg _ (by simpa using he)]
      apply ih
      have he2 : (e.1 == fp) = false := by simpa using he
      rw [List.any_cons, he2, Bool.false_or] at h
      exact h

theorem fsGet_fsSet (fs : FS) (fp c c' : String) (h : fsGet fs fp = some c) :
    fsGet (fsSet fs fp c') fp = some c' := by
  have hany := any_of_fsGet fs fp c h
  unfold fsSet
  rw [if_pos hany]
  unfold fsGet
  rw [find?_map_set fs fp c' hany]
  rfl

theorem fsSet_keys (fs : FS) (fp v : String) (hany : fs.any (fun e => e.1 == fp) = true) :
    (fsSet fs fp v).map Prod.fst = fs.map Prod.fst := by
  unfold fsSet
  rw [if_pos hany, List.map_map]
  apply List.map_congr_left
  intro e _
  show Prod.fst (if e.1 == fp then (fp, v) else e) = e.1
  by_cases he : (e.1 == fp) = true
  · rw [if_pos he]
    exact (beq_iff_eq.mp he).symm
  · rw [if_neg he]

theorem fsSet_fsSet_restore (fs : FS) (fp c c' : String)
    (hnd : (fs.map Prod.fst).Nodup) (h : fsGet fs fp = some c) :
    fsSet (fsSet fs fp c') fp c = fs := by
  have hany := any_of_fsGet fs fp c h
  obtain ⟨e0, hfind, he0⟩ := Option.map_eq_some'.mp
    (show (fs.find? (fun e => e.1 == fp)).map (fun e => e.2) = some c from h)
  obtain ⟨a, b⟩ := e0
  have he0mem : (a, b) ∈ fs := List.mem_of_find?_eq_some hfind
  have hpk0 := List.find?_some hfind
  have hpk : (((a, b) : String × String).1 == fp) = true := hpk0
  have he0key : a = fp := beq_iff_eq.mp hpk
  have he0val : b = c := he0
  subst he0key
  subst he0val
  have hget2 : fsGet (fsSet fs a c') a = some c' := fsGet_fsSet fs a b c' h
  have hany2 := any_of_fsGet _ a c' hget2
  have hm : fsSet fs a c' = fs.map (fun e => if e.1 == a then (a, c') else e) := by
    unfold fsSet
    rw [if_pos hany]
  rw [hm]
  rw [show fsSet (fs.map (fun e => if e.1 == a then (a, c') else e)) a b
      = (fs.map (fun e => if e.1 == a then (a, c') else e)).map
          (fun e => if e.1 == a then (a, b) else e) from by
    unfold fsSet
    rw [if_pos (hm ▸ hany2)]]
  rw [List.map_map]
  have hid : ∀ e ∈ fs, ((fun e => if e.1 == a then (a, b) else e) ∘
      (fun e => if e.1 == a then (a, c') else e)) e = id e := by
    intro e hmem
    simp only [Function.comp, id]
    by_cases he : (e.1 == a) = true
    · have heq : e = (a, b) := List.inj_on_of_nodup_map hnd hmem he0mem (beq_iff_eq.mp he)
      rw [if_pos he]
      rw [show (if ((a, c') : String × String).1 == a then ((a, b) : String × String)
          else (a, c')) = (a, b) from by simp]
      exact heq.symm
    · rw [if_neg he, if_neg he]
  rw [List.map_congr_left hid, List.map_id]

theorem rollbackAll_append : ∀ (l1 l2 : List (String × Patch)) (fs : FS),
    rollbackAll fs (l1 ++ l2) = rollbackAll (rollbackAll fs l1) l2 := by
  intro l1
  induction l1 with
  | nil => intro l2 fs; rfl
  | cons hd t ih =>
    intro l2 fs
    obtain ⟨fp, p⟩ := hd
    show rollbackAll (revertPatch fs fp p).2 (t ++ l2) = _
    rw [ih]
    rfl

theorem rollbackAll_undo : ∀ (applied : List (String × Patch)) (fs0 fsK : FS),
    (fs0.map Prod.fst).Nodup → RollSeq fs0 applied fsK →
    rollbackAll fsK applied.reverse = fs0 := by
  intro applied
  induction applied with
  | nil =>
    intro fs0 fsK _ hrs
    have h : fs0 = fsK := hrs
    subst h
    rfl
  | cons hd rest ih =>
    intro fs0 fsK hnd hrs
    obtain ⟨fp, p⟩ := hd
    obtain ⟨c, c', hget, hval, happ, hval2, happ2, hrs2⟩ := hrs
    have hany := any_of_fsGet fs0 fp c hget
    have hnd2 : ((fsSet fs0 fp c').map Prod.fst).Nodup := by
      rw [fsSet_keys fs0 fp c' hany]
      exact hnd
    have hroll := ih (fsSet fs0 fp c') fsK hnd2 hrs2
    rw [List.reverse_cons, rollbackAll_append, hroll]
    show (revertPatch (fsSet fs0 fp c') fp p).2 = fs0
    have hget2 : fsGet (fsSet fs0 fp c') fp = some c' := fsGet_fsSet fs0 fp c c' hget
    have hrev : revertPatch (fsSet fs0 fp c') fp p
        = (true, fsSet (fsSet fs0 fp c') fp c) := by
      unfold revertPatch applyPatch
      simp [fsExists, hget2, hval2, happ2]
    rw [hrev]
    exact fsSet_fsSet_restore fs0 fp c c' hnd hget

theorem batchGo_fail : ∀ (applied : List (String × Patch)) (fs0 fsK : FS)
    (pre : List (String × Patch)) (fpK : String) (pK : Patch)
    (post : List (String × Patch)),
    RollSeq fs0 applied fsK →
    (applyPatch fsK fpK pK).1 = false →
    batchGo fs0 pre (applied ++ (fpK, pK) :: post)
      = (some ("Failed to apply patch to " ++ fpK),
         rollbackAll fsK (pre ++ applied).reverse) := by
  intro applied
  induction applied with
  | nil =>
    intro fs0 fsK pre fpK pK post hrs hfail
    have h0 : fs0 = fsK := hrs
    subst h0
    rw [List.nil_append]
    simp only [batchGo]
    rw [hfail]
    simp
  | cons hd rest ih =>
    intro fs0 fsK pre fpK pK post hrs hfail
    obtain ⟨fp, p⟩ := hd
    obtain ⟨c, c', hget, hval, happ, hval2, happ2, hrs2⟩ := hrs
    have hstep : applyPatch fs0 fp p = (true, fsSet fs0 fp c') := by
      unfold applyPatch
      simp [fsExists, hget, hval, happ]
    rw [List.cons_append]
    simp only [batchGo, hstep]
    rw [ih (fsSet fs0 fp c') fsK (pre ++ [(fp, p)]) fpK pK post hrs2 hfail]
    simp [List.append_assoc]

/-- C3, amended: when the first `K` items apply cleanly and reversibly
(`RollSeq`: each file is present, validates, applies, and its reverse patch
validates and applies back to the previous content), the file-system keys
are duplicate-free, and item `K` fails, `applyPatchBatch` reports the
failing file and returns exactly the pre-batch file system: items `0..K-1`
are reverted in reverse order of application and items `K..N-1` are never
written.  (Without reversibility the original claim is false: the rollback
loop ignores each `revertPatch` result, so a hunk whose reverse apply does
not restore the content leaves the file corrupted — see the
counterexample.) -/
theorem C3_batch_rollback (fs0 fsK : FS) (applied : List (String × Patch))
    (fpK : String) (pK : Patch) (post : List (String × Patch))
    (hnd : (fs0.map Prod.fst).Nodup)
    (hrs : RollSeq fs0 applied fsK)
    (hfail : (applyPatch fsK fpK pK).1 = false) :
    applyPatchBatch fs0 (applied ++ (fpK, pK) :: post)
      = (some ("Failed to apply patch to " ++ fpK), fs0) := by
  unfold applyPatchBatch
  rw [batchGo_fail applied fs0 fsK [] fpK pK post hrs hfail]
  rw [show (([] : List (String × Patch)) ++ applied) = applied from rfl]
  rw [rollbackAll_undo applied fs0 fsK hnd hrs]

/-- Witness for C3: one reversible swap patch on `"f"`, then a failing item
on the missing file `"g"`; the batch reports `"g"` and hands back the
original file system. -/
theorem C3_batch_rollback_witness :
    applyPatchBatch [("f", "x\nz")] [("f", patchSwapFirst), ("g", patchNoHunks)]
      = (some "Failed to apply patch to g", [("f", "x\nz")]) :=
  C3_batch_rollback [("f", "x\nz")] [("f", "y\nz")] [("f", patchSwapFirst)]
    "g" patchNoHunks [] (by decide)
    ⟨"x\nz", "y\nz", by decide, by decide, by decide, by decide, by decide,
      (show fsSet [("f", "x\nz")] "f" "y\nz" = [("f", "y\nz")] by decide)⟩
    (by decide)

/-! ### Claim C7: pattern-key invariance over the token model -/

theorem splitAtQuote_len2 : ∀ (cs : List Char) (p : List Char × List Char),
    splitAtQuote cs = some p → p.2.length < cs.length := by
  intro cs
  induction cs with
  | nil => intro p h; simp [splitAtQuote] at h
  | cons c rest ih =>
    intro p h
    unfold splitAtQuote at h
    by_cases hq : isQuote c = true
    · rw [if_pos hq] at h
      cases h
      simp
    · rw [if_neg hq] at h
      rcases Option.map_eq_some'.mp h with ⟨p0, hp0, hpe⟩
      subst hpe
      exact Nat.lt_trans (ih p0 hp0) (by simp)

theorem dropWhile_len_le (P : Char → Bool) : ∀ l : List Char,
    (l.dropWhile P).length ≤ l.length := by
  intro l
  induction l with
  | nil => simp
  | cons c t ih =>
    rw [List.dropWhile_cons]
    by_cases hp : P c = true
    · rw [if_pos hp]
      exact Nat.le_trans ih (by simp)
    · rw [if_neg hp]

theorem replQGo_nil : ∀ f, replQGo f [] = [] := by
  intro f
  cases f <;> rfl

theorem replQGo_stable : ∀ (f1 : Nat) (cs : List Char) (f2 : Nat),
    cs.length ≤ f1 → cs.length ≤ f2 → replQGo f1 cs = replQGo f2 cs := by
  intro f1
  induction f1 with
  | zero =>
    intro cs f2 h1 _
    have hc : cs = [] := List.eq_nil_of_length_eq_zero (Nat.le_zero.mp h1)
    subst hc
    rw [replQGo_nil, replQGo_nil]
  | succ f ih =>
    intro cs f2 h1 h2
    cases cs with
    | nil => rw [replQGo_nil, replQGo_nil]
    | cons c rest =>
      cases f2 with
      | zero => simp at h2
      | succ f2n =>
        simp only [List.length_cons] at h1 h2
        have hr1 : rest.length ≤ f := by omega
        have hr2 : rest.length ≤ f2n := by omega
        simp only [replQGo]
        by_cases hq : isQuote c = true
        · rw [if_pos hq, if_pos hq]
          cases hsq : splitAtQuote rest with
          | some p =>
            have hlen := splitAtQuote_len2 rest p hsq
            dsimp only
            rw [ih p.2 f2n (by omega) (by omega)]
          | none =>
            dsimp only
            rw [ih rest f2n hr1 hr2]
        · rw [if_neg hq, if_neg hq]
          rw [ih rest f2n hr1 hr2]

theorem replDGo_nil : ∀ f, replDGo f [] = [] := by
  intro f
  cases f <;> rfl

theorem replDGo_stable : ∀ (f1 : Nat) (cs : List Char) (f2 : Nat),
    cs.length ≤ f1 → cs.length ≤ f2 → replDGo f1 cs = replDGo f2 cs := by
  intro f1
  induction f1 with
  | zero =>
    intro cs f2 h1 _
    have hc : cs = [] := List.eq_nil_of_length_eq_zero (Nat.le_zero.mp h1)
    subst hc
    rw [replDGo_nil, replDGo_nil]
  | succ f ih =>
    intro cs f2 h1 h2
    cases cs with
    | nil => rw [replDGo_nil, replDGo_nil]
    | cons c rest =>
      cases f2 with
      | zero => simp at h2
      | succ f2n =>
        simp only [List.length_cons] at h1 h2
        have hr1 : rest.length ≤ f := by omega
        have hr2 : rest.length ≤ f2n := by omega
        have hdw : (rest.dropWhile Char.isDigit).length ≤ rest.length :=
          dropWhile_len_le _ _
        simp only [replDGo]
        by_cases hd : c.isDigit = true
        · rw [if_pos hd, if_pos hd]
          rw [ih (rest.dropWhile Char.isDigit) f2n (by omega) (by omega)]
        · rw [if_neg hd, if_neg hd]
          rw [ih rest f2n hr1 hr2]

theorem onePathGroup_len : ∀ (cs rem : List Char),
    onePathGroup cs = some rem → rem.length < cs.length := by
  intro cs rem h
  unfold onePathGroup at h
  split at h
  · rename_i rest
    by_cases ht : rest.takeWhile isPathChar = []
    · rw [if_pos ht] at h
      cases h
    · rw [if_neg ht] at h
      cases h
      have hle := dropWhile_len_le isPathChar rest
      simp only [List.length_cons]
      omega
  · cases h

theorem pathManyGo_len : ∀ (fuel : Nat) (cs rem : List Char),
    pathManyGo fuel cs = some rem → rem.length < cs.length := by
  intro fuel
  induction fuel with
  | zero => intro cs rem h; cases h
  | succ f ih =>
    intro cs rem h
    unfold pathManyGo at h
    cases hog : onePathGroup cs with
    | none =>
      rw [hog] at h
      cases h
    | some rest1 =>
      rw [hog] at h
      dsimp only at h
      have hlen1 := onePathGroup_len cs rest1 hog
      cases hmg : pathManyGo f rest1 with
      | none =>
        rw [hmg] at h
        dsimp only at h
        cases h
        exact hlen1
      | some rest2 =>
        rw [hmg] at h
        dsimp only at h
        cases h
        exact Nat.lt_trans (ih rest1 rem hmg) hlen1

theorem pathMany_len : ∀ (cs rem : List Char),
    pathMany cs = some rem → rem.length < cs.length := by
  intro cs rem h
  exact pathManyGo_len cs.length cs rem h

theorem replPGo_nil : ∀ f, replPGo f [] = [] := by
  intro f
  cases f <;> rfl

theorem replPGo_stable : ∀ (f1 : Nat) (cs : List Char) (f2 : Nat),
    cs.length ≤ f1 → cs.length ≤ f2 → replPGo f1 cs = replPGo f2 cs := by
  intro f1
  induction f1 with
  | zero =>
    intro cs f2 h1 _
    have hc : cs = [] := List.eq_nil_of_length_eq_zero (Nat.le_zero.mp h1)
    subst hc
    rw [replPGo_nil, replPGo_nil]
  | succ f ih =>
    intro cs f2 h1 h2
    cases cs with
    | nil => rw [replPGo_nil, replPGo_nil]
    | cons c rest =>
      cases f2 with
      | zero => simp at h2
      | succ f2n =>
        simp only [List.length_cons] at h1 h2
        have hr1 : rest.length ≤ f := by omega
        have hr2 : rest.length ≤ f2n := by omega
        simp only [replPGo]
        cases hpm : pathMany (c :: rest) with
        | some rem =>
          dsimp only
          have hlen := pathMany_len (c :: rest) rem hpm
          simp only [List.length_cons] at hlen
          rw [ih rem f2n (by omega) (by omega)]
        | none =>
          dsimp only
          rw [ih rest f2n hr1 hr2]

theorem isQuote_of_digit (c : Char) (h : c.isDigit = true) : isQuote c = false := by
  unfold isQuote
  by_cases h1 : c = quoteChar
  · subst h1
    exact absurd h (by decide)
  · by_cases h2 : c = '"'
    · subst h2
      exact absurd h (by decide)
    · simp [h1, h2]

theorem isQuote_of_pathChar (c : Char) (h : isPathChar c = true) : isQuote c = false := by
  unfold isQuote
  by_cases h1 : c = quoteChar
  · subst h1
    exact absurd h (by decide)
  · by_cases h2 : c = '"'
    · subst h2
      exact absurd h (by decide)
    · simp [h1, h2]

theorem ne_slash_of_digit (c : Char) (h : c.isDigit = true) : c ≠ '/' :=
  fun he => absurd (he ▸ h) (by decide)

theorem notDigit_of_slash : ('/' : Char).isDigit = false := by decide

theorem takeDropWhile_append_of (P : Char → Bool) : ∀ (l X : List Char),
    (∀ c ∈ l, P c = true) →
    (X = [] ∨ ∃ c t, X = c :: t ∧ P c = false) →
    (l ++ X).takeWhile P = l ∧ (l ++ X).dropWhile P = X := by
  intro l
  induction l with
  | nil =>
    intro X _ hX
    rcases hX with h | ⟨c, t, hct, hc⟩
    · subst h
      exact ⟨rfl, rfl⟩
    · subst hct
      rw [List.nil_append, List.takeWhile_cons, List.dropWhile_cons, if_neg (by simp [hc]),
        if_neg (by simp [hc])]
      exact ⟨rfl, rfl⟩
  | cons a l2 ih =>
    intro X hl hX
    have ha := hl a (List.mem_cons_self a l2)
    have hrec := ih X (fun c hc => hl c (List.mem_cons_of_mem a hc)) hX
    rw [List.cons_append, List.takeWhile_cons, List.dropWhile_cons,
      if_pos ha, if_pos ha, hrec.1, hrec.2]
    exact ⟨rfl, rfl⟩

theorem splitAtQuote_exact : ∀ (pre : List Char) (q : Char) (X : List Char),
    (∀ c ∈ pre, isQuote c = false) → isQuote q = true →
    splitAtQuote (pre ++ q :: X) = some (pre, X) := by
  intro pre
  induction pre with
  | nil =>
    intro q X _ hq
    rw [List.nil_append]
    unfold splitAtQuote
    rw [if_pos hq]
  | cons c pre2 ih =>
    intro q X hpre hq
    have hc := hpre c (List.mem_cons_self c pre2)
    rw [List.cons_append]
    unfold splitAtQuote
    rw [if_neg (by simp [hc]), ih q X (fun d hd => hpre d (List.mem_cons_of_mem c hd)) hq]
    rfl

theorem renderMsg_data : ∀ ts : List MsgTok,
    (renderMsg ts).data = (ts.map renderTok).flatten := by
  intro ts
  show ts.foldr (fun t acc => renderTok t ++ acc) [] = _
  induction ts with
  | nil => rfl
  | cons t rest ih =>
    rw [List.foldr_cons, List.map_cons, List.flatten_cons, ih]

theorem mem_renderPath : ∀ (segs : List String) (c : Char),
    c ∈ renderTok (MsgTok.path segs) → c = '/' ∨ ∃ seg ∈ segs, c ∈ seg.data := by
  intro segs
  induction segs with
  | nil => intro c hc; simp [renderTok] at hc
  | cons s ss ih =>
    intro c hc
    have hc2 : c ∈ '/' :: (s.data ++ renderTok (MsgTok.path ss)) := hc
    rcases List.mem_cons.mp hc2 with h1 | h1
    · exact Or.inl h1
    · rcases List.mem_append.mp h1 with h2 | h2
      · exact Or.inr ⟨s, List.mem_cons_self s ss, h2⟩
      · rcases ih c h2 with h3 | ⟨seg, hseg, hcseg⟩
        · exact Or.inl h3
        · exact Or.inr ⟨seg, List.mem_cons_of_mem s hseg, hcseg⟩

theorem goodChainB_cons (t : MsgTok) (rest : List MsgTok)
    (h : goodChainB (t :: rest) = true) :
    goodTokB t = true ∧ goodChainB rest = true ∧
      ∀ u rest2, rest = u :: rest2 → okPairB t u = true := by
  cases rest with
  | nil =>
    refine ⟨h, rfl, ?_⟩
    intro u r2 hh
    cases hh
  | cons u r2 =>
    have h2 : (goodTokB t && okPairB t u && goodChainB (u :: r2)) = true := h
    simp only [Bool.and_eq_true] at h2
    refine ⟨h2.1.1, h2.2, ?_⟩
    intro u2 r3 hh
    injection hh with e1 _
    subst e1
    exact h2.1.2

theorem goodTok_lit (s : String) (h : goodTokB (MsgTok.lit s) = true) :
    s.data ≠ [] ∧ ∀ c ∈ s.data, isQuote c = false ∧ c.isDigit = false ∧ c ≠ '/' := by
  have h2 : (!s.data.isEmpty &&
      s.data.all (fun c => !isQuote c && !c.isDigit && !(c = '/'))) = true := h
  simp only [Bool.and_eq_true] at h2
  constructor
  · intro he
    rw [he] at h2
    simp at h2
  · intro c hc
    have h3 := List.all_eq_true.mp h2.2 c hc
    simp only [Bool.and_eq_true] at h3
    exact ⟨by simpa using h3.1.1, by simpa using h3.1.2, by simpa using h3.2⟩

theorem goodTok_quoted (q : Char) (content : String)
    (h : goodTokB (MsgTok.quoted q content) = true) :
    isQuote q = true ∧ ∀ c ∈ content.data, isQuote c = false := by
  have h2 : (isQuote q && content.data.all (fun c => !isQuote c)) = true := h
  simp only [Bool.and_eq_true] at h2
  exact ⟨h2.1, fun c hc => by simpa using List.all_eq_true.mp h2.2 c hc⟩

theorem goodTok_num (ds : String) (h : goodTokB (MsgTok.num ds) = true) :
    ds.data ≠ [] ∧ ∀ c ∈ ds.data, c.isDigit = true := by
  have h2 : (!ds.data.isEmpty && ds.data.all Char.isDigit) = true := h
  simp only [Bool.and_eq_true] at h2
  constructor
  · intro he
    rw [he] at h2
    simp at h2
  · exact fun c hc => List.all_eq_true.mp h2.2 c hc

theorem goodTok_path (segs : List String) (h : goodTokB (MsgTok.path segs) = true) :
    segs ≠ [] ∧ ∀ seg ∈ segs, seg.data ≠ [] ∧
      ∀ c ∈ seg.data, isPathChar c = true ∧ c.isDigit = false := by
  have h2 : (!segs.isEmpty && segs.all (fun seg => !seg.data.isEmpty &&
      seg.data.all (fun c => isPathChar c && !c.isDigit))) = true := h
  simp only [Bool.and_eq_true] at h2
  constructor
  · intro he
    rw [he] at h2
    simp at h2
  · intro seg hseg
    have h3 := List.all_eq_true.mp h2.2 seg hseg
    simp only [Bool.and_eq_true] at h3
    constructor
    · intro he
      rw [he] at h3
      simp at h3
    · intro c hc
      have h4 := List.all_eq_true.mp h3.2 c hc
      simp only [Bool.and_eq_true] at h4
      exact ⟨h4.1, by simpa using h4.2⟩

theorem tokQ_head_nondigit (u : MsgTok) (hu : goodTokB u = true)
    (hnum : ∀ ds, u ≠ MsgTok.num ds) :
    ∃ c t, tokQ u = c :: t ∧ c.isDigit = false := by
  cases u with
  | lit s =>
    obtain ⟨hne, hall⟩ := goodTok_lit s hu
    cases hd : s.data with
    | nil => exact absurd hd hne
    | cons c t =>
      refine ⟨c, t, ?_, ?_⟩
      · rw [show tokQ (MsgTok.lit s) = s.data from rfl, hd]
      · exact (hall c (by rw [hd]; exact List.mem_cons_self c t)).2.1
  | quoted q content => exact ⟨'<', "STRING>".data, rfl, by decide⟩
  | num ds => exact absurd rfl (hnum ds)
  | path segs =>
    obtain ⟨hne, _⟩ := goodTok_path segs hu
    cases segs with
    | nil => exact absurd rfl hne
    | cons s ss =>
      exact ⟨'/', s.data ++ renderTok (MsgTok.path ss), rfl, by decide⟩

theorem tokQD_head_nonpath (u : MsgTok) (hu : goodTokB u = true)
    (segs0 : List String) (hok : okPairB (MsgTok.path segs0) u = true) :
    ∃ c t, tokQD u = c :: t ∧ isPathChar c = false ∧ c ≠ '/' := by
  cases u with
  | lit s =>
    obtain ⟨hne, hall⟩ := goodTok_lit s hu
    cases hd : s.data with
    | nil => exact absurd hd hne
    | cons c t =>
      have hok2 : (match s.data with
        | [] => true
        | c :: _ => !isPathChar c) = true := hok
      rw [hd] at hok2
      refine ⟨c, t, ?_, by simpa using hok2, (hall c (by rw [hd]; exact List.mem_cons_self c t)).2.2⟩
      rw [show tokQD (MsgTok.lit s) = s.data from rfl, hd]
  | quoted q content => exact ⟨'<', "STRING>".data, rfl, by decide, by decide⟩
  | num ds => exact ⟨'<', "NUM>".data, rfl, by decide, by decide⟩
  | path segs => simp [okPairB] at hok

theorem replQGo_skip : ∀ (cs X : List Char) (fuel : Nat),
    (∀ c ∈ cs, isQuote c = false) → (cs ++ X).length ≤ fuel →
    replQGo fuel (cs ++ X) = cs ++ replQGo X.length X := by
  intro cs
  induction cs with
  | nil =>
    intro X fuel _ hf
    rw [List.nil_append, List.nil_append]
    exact replQGo_stable fuel X X.length (by simpa using hf) le_rfl
  | cons c cs2 ih =>
    intro X fuel hq hf
    cases fuel with
    | zero => simp at hf
    | succ f =>
      rw [List.cons_append]
      simp only [replQGo]
      rw [if_neg (by simp [hq c (List.mem_cons_self c cs2)])]
      rw [ih X f (fun d hd => hq d (List.mem_cons_of_mem c hd))
        (by simp only [List.cons_append, List.length_cons] at hf; omega)]
      rfl

theorem replDGo_skip : ∀ (cs X : List Char) (fuel : Nat),
    (∀ c ∈ cs, c.isDigit = false) → (cs ++ X).length ≤ fuel →
    replDGo fuel (cs ++ X) = cs ++ replDGo X.length X := by
  intro cs
  induction cs with
  | nil =>
    intro X fuel _ hf
    rw [List.nil_append, List.nil_append]
    exact replDGo_stable fuel X X.length (by simpa using hf) le_rfl
  | cons c cs2 ih =>
    intro X fuel hd hf
    cases fuel with
    | zero => simp at hf
    | succ f =>
      rw [List.cons_append]
      simp only [replDGo]
      rw [if_neg (by simp [hd c (List.mem_cons_self c cs2)])]
      rw [ih X f (fun d2 hd2 => hd d2 (List.mem_cons_of_mem c hd2))
        (by simp only [List.cons_append, List.length_cons] at hf; omega)]
      rfl

theorem onePathGroup_nil : onePathGroup [] = none := rfl

theorem onePathGroup_noslash (c : Char) (t : List Char) (hc : c ≠ '/') :
    onePathGroup (c :: t) = none := by
  unfold onePathGroup
  split
  · rename_i rest heq
    injection heq with e1 _
    exact absurd e1 hc
  · rfl

theorem pathManyGo_noneOf (X : List Char) (h : onePathGroup X = none) :
    ∀ f, pathManyGo f X = none := by
  intro f
  cases f with
  | zero => rfl
  | succ f2 =>
    simp only [pathManyGo]
    rw [h]

theorem pathMany_none_of_head (c : Char) (t : List Char) (hc : c ≠ '/') :
    pathMany (c :: t) = none :=
  pathManyGo_noneOf (c :: t) (onePathGroup_noslash c t hc) _

theorem replPGo_skip : ∀ (cs X : List Char) (fuel : Nat),
    (∀ c ∈ cs, c ≠ '/') → (cs ++ X).length ≤ fuel →
    replPGo fuel (cs ++ X) = cs ++ replPGo X.length X := by
  intro cs
  induction cs with
  | nil =>
    intro X fuel _ hf
    rw [List.nil_append, List.nil_append]
    exact replPGo_stable fuel X X.length (by simpa using hf) le_rfl
  | cons c cs2 ih =>
    intro X fuel hs hf
    cases fuel with
    | zero => simp at hf
    | succ f =>
      rw [List.cons_append]
      simp only [replPGo]
      rw [pathMany_none_of_head c (cs2 ++ X) (hs c (List.mem_cons_self c cs2))]
      dsimp only
      rw [ih X f (fun d hd => hs d (List.mem_cons_of_mem c hd))
        (by simp only [List.cons_append, List.length_cons] at hf; omega)]
      rfl

theorem renderPath_len : ∀ segs : List String,
    segs.length ≤ (renderTok (MsgTok.path segs)).length := by
  intro segs
  induction segs with
  | nil => simp [renderTok]
  | cons s ss ih =>
    show (s :: ss).length ≤ ('/' :: (s.data ++ renderTok (MsgTok.path ss))).length
    simp only [List.length_cons, List.length_append]
    omega

theorem pathManyGo_render : ∀ (segs : List String), segs ≠ [] →
    (∀ seg ∈ segs, seg.data ≠ [] ∧ ∀ c ∈ seg.data, isPathChar c = true) →
    ∀ (X : List Char), (X = [] ∨ ∃ c t, X = c :: t ∧ isPathChar c = false ∧ c ≠ '/') →
    ∀ fuel, segs.length ≤ fuel →
    pathManyGo fuel (renderTok (MsgTok.path segs) ++ X) = some X := by
  intro segs
  induction segs with
  | nil => intro h; exact absurd rfl h
  | cons s ss ih =>
    intro _ hgood X hX fuel hfuel
    cases fuel with
    | zero => simp at hfuel
    | succ f =>
      obtain ⟨hsne, hschars⟩ := hgood s (List.mem_cons_self s ss)
      have hshape : renderTok (MsgTok.path (s :: ss)) ++ X
          = '/' :: (s.data ++ (renderTok (MsgTok.path ss) ++ X)) := by
        show '/' :: ((s.data ++ renderTok (MsgTok.path ss)) ++ X) = _
        rw [List.append_assoc]
      rw [hshape]
      have htail : (renderTok (MsgTok.path ss) ++ X) = [] ∨
          ∃ c t, (renderTok (MsgTok.path ss) ++ X) = c :: t ∧ isPathChar c = false := by
        cases ss with
        | nil =>
          rcases hX with h1 | ⟨c, t, hct, hc, _⟩
          · subst h1
            exact Or.inl rfl
          · subst hct
            exact Or.inr ⟨c, t, rfl, hc⟩
        | cons s2 ss2 =>
          refine Or.inr ⟨'/', (s2.data ++ renderTok (MsgTok.path ss2)) ++ X, rfl, by decide⟩
      have htd := takeDropWhile_append_of isPathChar s.data
        (renderTok (MsgTok.path ss) ++ X) (fun c hc => (hschars c hc)) htail
      simp only [pathManyGo]
      rw [show onePathGroup ('/' :: (s.data ++ (renderTok (MsgTok.path ss) ++ X)))
          = some (renderTok (MsgTok.path ss) ++ X) from by
        simp only [onePathGroup]
        rw [htd.1, htd.2, if_neg hsne]]
      dsimp only
      cases ss with
      | nil =>
        have hnone : pathManyGo f (renderTok (MsgTok.path ([] : List String)) ++ X) = none := by
          rw [show renderTok (MsgTok.path ([] : List String)) ++ X = X from by
            simp [renderTok]]
          rcases hX with h1 | ⟨c, t, hct, _, hc⟩
          · subst h1
            exact pathManyGo_noneOf [] onePathGroup_nil f
          · subst hct
            exact pathManyGo_noneOf (c :: t) (onePathGroup_noslash c t hc) f
        rw [hnone]
        dsimp only
        rw [show renderTok (MsgTok.path ([] : List String)) ++ X = X from by simp [renderTok]]
      | cons s2 ss2 =>
        rw [ih (by simp) (fun seg hseg => hgood seg (List.mem_cons_of_mem s hseg)) X hX f
          (by simp only [List.length_cons] at hfuel ⊢; omega)]

theorem pathMany_render (segs : List String) (hne : segs ≠ [])
    (hgood : ∀ seg ∈ segs, seg.data ≠ [] ∧ ∀ c ∈ seg.data, isPathChar c = true)
    (X : List Char) (hX : X = [] ∨ ∃ c t, X = c :: t ∧ isPathChar c = false ∧ c ≠ '/') :
    pathMany (renderTok (MsgTok.path segs) ++ X) = some X := by
  unfold pathMany
  apply pathManyGo_render segs hne hgood X hX
  exact Nat.le_trans (renderPath_len segs) (by simp)

theorem goodChain_all : ∀ ts, goodChainB ts = true → ∀ t ∈ ts, goodTokB t = true := by
  intro ts
  induction ts with
  | nil => intro _ t ht; simp at ht
  | cons a as ih =>
    intro h t ht
    obtain ⟨ha, hrest, _⟩ := goodChainB_cons a as h
    rcases List.mem_cons.mp ht with h1 | h1
    · subst h1
      exact ha
    · exact ih hrest t h1

theorem replQGo_flat : ∀ (ts : List MsgTok), (∀ t ∈ ts, goodTokB t = true) →
    ∀ fuel, ((ts.map renderTok).flatten).length ≤ fuel →
    replQGo fuel ((ts.map renderTok).flatten) = (ts.map tokQ).flatten := by
  intro ts
  induction ts with
  | nil =>
    intro _ fuel _
    simp only [List.map_nil, List.flatten_nil]
    exact replQGo_nil fuel
  | cons t rest ih =>
    intro hgood fuel hfuel
    have ht := hgood t (List.mem_cons_self t rest)
    have hrest := fun u hu => hgood u (List.mem_cons_of_mem t hu)
    rw [List.map_cons, List.flatten_cons] at hfuel ⊢
    rw [List.map_cons, List.flatten_cons]
    cases t with
    | lit s =>
      obtain ⟨_, hall⟩ := goodTok_lit s ht
      rw [show renderTok (MsgTok.lit s) = s.data from rfl,
          show tokQ (MsgTok.lit s) = s.data from rfl]
      rw [replQGo_skip s.data _ fuel (fun c hc => (hall c hc).1) hfuel]
      rw [ih hrest _ le_rfl]
    | quoted q content =>
      obtain ⟨hqq, hcont⟩ := goodTok_quoted q content ht
      have hshape : renderTok (MsgTok.quoted q content) ++ ((rest.map renderTok).flatten)
          = q :: (content.data ++ (q :: (rest.map renderTok).flatten)) := by
        show q :: ((content.data ++ [q]) ++ (rest.map renderTok).flatten) = _
        rw [List.append_assoc]
        rfl
      rw [hshape] at hfuel ⊢
      cases fuel with
      | zero => simp at hfuel
      | succ f =>
        simp only [replQGo]
        rw [if_pos hqq]
        rw [splitAtQuote_exact content.data q ((rest.map renderTok).flatten) hcont hqq]
        dsimp only
        have hXlen : ((rest.map renderTok).flatten).length ≤ f := by
          simp only [List.length_cons, List.length_append] at hfuel
          omega
        rw [replQGo_stable f _ ((rest.map renderTok).flatten).length hXlen le_rfl]
        rw [ih hrest _ le_rfl]
        rfl
    | num ds =>
      obtain ⟨_, hall⟩ := goodTok_num ds ht
      rw [show renderTok (MsgTok.num ds) = ds.data from rfl,
          show tokQ (MsgTok.num ds) = ds.data from rfl]
      rw [replQGo_skip ds.data _ fuel (fun c hc => isQuote_of_digit c (hall c hc)) hfuel]
      rw [ih hrest _ le_rfl]
    | path segs =>
      obtain ⟨_, hsegs⟩ := goodTok_path segs ht
      have hchars : ∀ c ∈ renderTok (MsgTok.path segs), isQuote c = false := by
        intro c hc
        rcases mem_renderPath segs c hc with h1 | ⟨seg, hseg, hcs⟩
        · subst h1
          decide
        · exact isQuote_of_pathChar c (((hsegs seg hseg).2 c hcs)).1
      rw [show tokQ (MsgTok.path segs) = renderTok (MsgTok.path segs) from rfl]
      rw [replQGo_skip _ _ fuel hchars hfuel]
      rw [ih hrest _ le_rfl]

theorem replDGo_flat : ∀ (ts : List MsgTok), goodChainB ts = true →
    ∀ fuel, ((ts.map tokQ).flatten).length ≤ fuel →
    replDGo fuel ((ts.map tokQ).flatten) = (ts.map tokQD).flatten := by
  intro ts
  induction ts with
  | nil =>
    intro _ fuel _
    simp only [List.map_nil, List.flatten_nil]
    exact replDGo_nil fuel
  | cons t rest ih =>
    intro hchain fuel hfuel
    obtain ⟨ht, hrest, hpair⟩ := goodChainB_cons t rest hchain
    rw [List.map_cons, List.flatten_cons] at hfuel ⊢
    rw [List.map_cons, List.flatten_cons]
    cases t with
    | lit s =>
      obtain ⟨_, hall⟩ := goodTok_lit s ht
      rw [show tokQ (MsgTok.lit s) = s.data from rfl,
          show tokQD (MsgTok.lit s) = s.data from rfl]
      rw [replDGo_skip s.data _ fuel (fun c hc => (hall c hc).2.1) hfuel]
      rw [ih hrest _ le_rfl]
    | quoted q content =>
      rw [show tokQ (MsgTok.quoted q content) = "<STRING>".data from rfl,
          show tokQD (MsgTok.quoted q content) = "<STRING>".data from rfl]
      rw [replDGo_skip "<STRING>".data _ fuel (by decide) hfuel]
      rw [ih hrest _ le_rfl]
    | num ds =>
      obtain ⟨hne, hall⟩ := goodTok_num ds ht
      have hX : ((rest.map tokQ).flatten) = [] ∨
          ∃ c t2, ((rest.map tokQ).flatten) = c :: t2 ∧ c.isDigit = false := by
        cases rest with
        | nil => exact Or.inl rfl
        | cons u rest2 =>
          have hugood : goodTokB u = true := (goodChainB_cons u rest2 hrest).1
          have hok := hpair u rest2 rfl
          have hunum : ∀ ds2, u ≠ MsgTok.num ds2 := by
            intro ds2 he
            subst he
            simp [okPairB] at hok
          obtain ⟨c, t2, hct, hcd⟩ := tokQ_head_nondigit u hugood hunum
          rw [List.map_cons, List.flatten_cons, hct]
          exact Or.inr ⟨c, t2 ++ (rest2.map tokQ).flatten, rfl, hcd⟩
      cases hd : ds.data with
      | nil => exact absurd hd hne
      | cons d ds2 =>
        have hdd : d.isDigit = true := hall d (by rw [hd]; exact List.mem_cons_self d ds2)
        rw [show tokQ (MsgTok.num ds) = ds.data from rfl, hd] at hfuel ⊢
        rw [List.cons_append] at hfuel ⊢
        cases fuel with
        | zero => simp at hfuel
        | succ f =>
          simp only [replDGo]
          rw [if_pos hdd]
          have hdrop := (takeDropWhile_append_of Char.isDigit ds2 _
            (fun c hc => hall c (by rw [hd]; exact List.mem_cons_of_mem d hc)) hX).2
          rw [hdrop]
          have hXlen : ((rest.map tokQ).flatten).length ≤ f := by
            simp only [List.length_cons, List.length_append] at hfuel
            omega
          rw [replDGo_stable f _ ((rest.map tokQ).flatten).length hXlen le_rfl]
          rw [ih hrest _ le_rfl]
          rfl
    | path segs =>
      obtain ⟨_, hsegs⟩ := goodTok_path segs ht
      have hchars : ∀ c ∈ renderTok (MsgTok.path segs), c.isDigit = false := by
        intro c hc
        rcases mem_renderPath segs c hc with h1 | ⟨seg, hseg, hcs⟩
        · subst h1
          decide
        · exact ((hsegs seg hseg).2 c hcs).2
      rw [show tokQ (MsgTok.path segs) = renderTok (MsgTok.path segs) from rfl,
          show tokQD (MsgTok.path segs) = renderTok (MsgTok.path segs) from rfl]
      rw [replDGo_skip _ _ fuel hchars hfuel]
      rw [ih hrest _ le_rfl]

theorem replPGo_flat : ∀ (ts : List MsgTok), goodChainB ts = true →
    ∀ fuel, ((ts.map tokQD).flatten).length ≤ fuel →
    replPGo fuel ((ts.map tokQD).flatten) = (ts.map tokKey).flatten := by
  intro ts
  induction ts with
  | nil =>
    intro _ fuel _
    simp only [List.map_nil, List.flatten_nil]
    exact replPGo_nil fuel
  | cons t rest ih =>
    intro hchain fuel hfuel
    obtain ⟨ht, hrest, hpair⟩ := goodChainB_cons t rest hchain
    rw [List.map_cons, List.flatten_cons] at hfuel ⊢
    rw [List.map_cons, List.flatten_cons]
    cases t with
    | lit s =>
      obtain ⟨_, hall⟩ := goodTok_lit s ht
      rw [show tokQD (MsgTok.lit s) = s.data from rfl,
          show tokKey (MsgTok.lit s) = s.data from rfl]
      rw [replPGo_skip s.data _ fuel (fun c hc => (hall c hc).2.2) hfuel]
      rw [ih hrest _ le_rfl]
    | quoted q content =>
      rw [show tokQD (MsgTok.quoted q content) = "<STRING>".data from rfl,
          show tokKey (MsgTok.quoted q content) = "<STRING>".data from rfl]
      rw [replPGo_skip "<STRING>".data _ fuel (by decide) hfuel]
      rw [ih hrest _ le_rfl]
    | num ds =>
      rw [show tokQD (MsgTok.num ds) = "<NUM>".data from rfl,
          show tokKey (MsgTok.num ds) = "<NUM>".data from rfl]
      rw [replPGo_skip "<NUM>".data _ fuel (by decide) hfuel]
      rw [ih hrest _ le_rfl]
    | path segs =>
      obtain ⟨hne, hsegs⟩ := goodTok_path segs ht
      have hX : ((rest.map tokQD).flatten) = [] ∨
          ∃ c t2, ((rest.map tokQD).flatten) = c :: t2 ∧ isPathChar c = false ∧ c ≠ '/' := by
        cases rest with
        | nil => exact Or.inl rfl
        | cons u rest2 =>
          have hugood : goodTokB u = true := (goodChainB_cons u rest2 hrest).1
          have hok := hpair u rest2 rfl
          obtain ⟨c, t2, hct, hcp, hcs⟩ := tokQD_head_nonpath u hugood segs hok
          rw [List.map_cons, List.flatten_cons, hct]
          exact Or.inr ⟨c, t2 ++ (rest2.map tokQD).flatten, rfl, hcp, hcs⟩
      have hpm := pathMany_render segs hne
        (fun seg hseg => ⟨(hsegs seg hseg).1, fun c hc => ((hsegs seg hseg).2 c hc).1⟩)
        ((rest.map tokQD).flatten) hX
      cases segs with
      | nil => exact absurd rfl hne
      | cons s ss =>
        rw [show tokQD (MsgTok.path (s :: ss)) = renderTok (MsgTok.path (s :: ss)) from rfl]
          at hfuel ⊢
        have hshape : renderTok (MsgTok.path (s :: ss)) ++ ((rest.map tokQD).flatten)
            = '/' :: ((s.data ++ renderTok (MsgTok.path ss)) ++ (rest.map tokQD).flatten) := rfl
        rw [hshape] at hfuel ⊢
        cases fuel with
        | zero => simp at hfuel
        | succ f =>
          simp only [replPGo]
          have hpm2 : pathMany ('/' :: ((s.data ++ renderTok (MsgTok.path ss))
              ++ (rest.map tokQD).flatten)) = some ((rest.map tokQD).flatten) := hpm
          rw [hpm2]
          dsimp only
          have hlen := pathMany_len _ _ hpm2
          simp only [List.length_cons] at hlen hfuel
          rw [replPGo_stable f _ ((rest.map tokQD).flatten).length (by omega) le_rfl]
          rw [ih hrest _ le_rfl]
          rfl

theorem canonKey (ts : List MsgTok) (h : goodChainB ts = true) :
    generatePatternKey (renderMsg ts) = String.mk (trimChars ((ts.map tokKey).flatten)) := by
  unfold generatePatternKey
  rw [renderMsg_data]
  rw [show replQ ((ts.map renderTok).flatten) = (ts.map tokQ).flatten from
    replQGo_flat ts (goodChain_all ts h) _ le_rfl]
  rw [show replD ((ts.map tokQ).flatten) = (ts.map tokQD).flatten from
    replDGo_flat ts h _ le_rfl]
  rw [show replP ((ts.map tokQD).flatten) = (ts.map tokKey).flatten from
    replPGo_flat ts h _ le_rfl]

theorem tokKey_shape (a b : MsgTok) (h : shapeTokB a b = true) : tokKey a = tokKey b := by
  cases a <;> cases b <;> simp_all [shapeTokB, tokKey]

theorem mapTokKey_shape : ∀ ts1 ts2 : List MsgTok, shapeListB ts1 ts2 = true →
    ts1.map tokKey = ts2.map tokKey := by
  intro ts1
  induction ts1 with
  | nil =>
    intro ts2 h
    cases ts2 with
    | nil => rfl
    | cons b bs => simp [shapeListB] at h
  | cons a as ih =>
    intro ts2 h
    cases ts2 with
    | nil => simp [shapeListB] at h
    | cons b bs =>
      have h2 : (shapeTokB a b && shapeListB as bs) = true := h
      simp only [Bool.and_eq_true] at h2
      rw [List.map_cons, List.map_cons, tokKey_shape a b h2.1, ih bs h2.2]

/-- C7, amended: the key is invariant for messages that are well-formed
interleavings of fixed literal text with volatile parts — quoted
substrings, maximal digit runs, and slash-separated runs of digit-free
path segments — sharing the same skeleton.  Two such messages differing
only in the volatile contents get the identical pattern key.  (For raw
POSIX paths the original claim is false: digits inside a segment are
replaced first, splitting one path run into `<PATH><NUM><PATH>` — see the
counterexample.) -/
theorem C7_patternKey_token_invariance (ts1 ts2 : List MsgTok)
    (h1 : goodChainB ts1 = true) (h2 : goodChainB ts2 = true)
    (hs : shapeListB ts1 ts2 = true) :
    generatePatternKey (renderMsg ts1) = generatePatternKey (renderMsg ts2) := by
  rw [canonKey ts1 h1, canonKey ts2 h2, mapTokKey_shape ts1 ts2 hs]

/-- Witness for C7: same skeleton, different quoted name and line number. -/
theorem C7_patternKey_token_invariance_witness :
    generatePatternKey (renderMsg [MsgTok.lit "Cannot find name ",
        MsgTok.quoted '"' "foo", MsgTok.lit " at line ", MsgTok.num "42"])
      = generatePatternKey (renderMsg [MsgTok.lit "Cannot find name ",
        MsgTok.quoted '"' "bar", MsgTok.lit " at line ", MsgTok.num "7"]) :=
  C7_patternKey_token_invariance
    [MsgTok.lit "Cannot find name ", MsgTok.quoted '"' "foo",
      MsgTok.lit " at line ", MsgTok.num "42"]
    [MsgTok.lit "Cannot find name ", MsgTok.quoted '"' "bar",
      MsgTok.lit " at line ", MsgTok.num "7"]
    (by decide) (by decide) (by decide)

end AUA
